import Mathlib

/-!
Shallow embedding of the finite-domain CSP solver (`csp.py`): the constraint
store built by `CSP.__init__`, the AC-3 propagation (`ac_3` / `_revise`),
the backtracking search (`backtracking_search` / `backtrack` /
`_is_consistent` / `_make_inference` / `_restore_inferences`) and the
`alldiff` edge generator.  Python dicts are modelled as association lists
(first matching key wins, keys unique in every state built by the code),
Python sets as duplicate-free lists in insertion order, and mutation as
explicit state passing.
-/

abbrev Var := String
abbrev Val := Nat
abbrev Assignment := List (Var × Val)
abbrev Domains := List (Var × List Val)
abbrev BC := List ((Var × Var) × List (Val × Val))

/-- Association-list lookup for dict-like state: the first matching entry
wins, as in a Python dict (whose keys are unique). -/
def lookupA {κ ρ : Type} [DecidableEq κ] : List (κ × ρ) → κ → Option ρ
  | [], _ => none
  | e :: rest, k => if e.1 = k then some e.2 else lookupA rest k

/-- `self.domains[v]`.  A missing key would raise `KeyError` in Python; the
well-formedness hypotheses of the theorems below keep every consulted key
present, so the `[]` default is never produced on the paths reasoned about. -/
def lookupD (d : Domains) (v : Var) : List Val :=
  (lookupA d v).getD []

/-- Python dict assignment `m[k] = v`: replace the entry in place when the key
exists (keeping its position), otherwise append a new entry. -/
def insertA {κ ρ : Type} [DecidableEq κ] : List (κ × ρ) → κ → ρ → List (κ × ρ)
  | [], k, r => [(k, r)]
  | e :: rest, k, r => if e.1 = k then (k, r) :: rest else e :: insertA rest k r

/-- In-place mutation of the value stored at an existing key (the effect of
`self.domains[xi].remove(...)` on the stored set): replace the first matching
entry, keeping its position; a missing key is left untouched. -/
def updateD (d : Domains) (v : Var) (nd : List Val) : Domains :=
  match d with
  | [] => []
  | e :: rest => if e.1 = v then (v, nd) :: rest else e :: updateD rest v nd

/-- Python `set.add`: append the element when not already present. -/
def addElem {α : Type} [DecidableEq α] (s : List α) (x : α) : List α :=
  if x ∈ s then s else s ++ [x]

/-- The compatible-pairs set built by `CSP.__init__` for one edge
`(variable1, variable2)`: every pair of distinct values drawn from the two
domains, inserted in both orders. -/
def constraintPairs (d1 d2 : List Val) : List (Val × Val) :=
  d1.foldl (fun s v1 =>
    d2.foldl (fun s v2 =>
      if v1 ≠ v2 then addElem (addElem s (v1, v2)) (v2, v1) else s) s) []

/-- The loop of `CSP.__init__` over `edges` that fills `binary_constraints`;
`none` models the `KeyError` raised when a missing `domains` key is indexed.
`domains[variable1]` is indexed for every edge, but `domains[variable2]` is
indexed only inside the loop over `domains[variable1]` and hence only when
that domain is nonempty: with an empty first domain the entry stays the empty
set and a missing second variable raises nothing. -/
def buildBC (domains : Domains) : List (Var × Var) → BC → Option BC
  | [], bc => some bc
  | (v1, v2) :: rest, bc =>
    match lookupA domains v1 with
    | none => none
    | some d1 =>
      if d1.isEmpty then buildBC domains rest (insertA bc (v1, v2) [])
      else
        match lookupA domains v2 with
        | none => none
        | some d2 =>
          buildBC domains rest (insertA bc (v1, v2) (constraintPairs d1 d2))

/-- The state of a `CSP` instance: `self.variables` (called `vars` here since
`variables` is reserved in Lean), `self.domains` and `self.binary_constraints`
(the two diagnostic counters are ignored). -/
structure CSPState where
  vars : List Var
  domains : Domains
  bc : BC
deriving Repr, DecidableEq

/-- `CSP.__init__`: record variables and domains and build the binary
constraints; `none` models the `KeyError` escape. -/
def buildCSP (vars : List Var) (domains : Domains) (edges : List (Var × Var)) :
    Option CSPState :=
  (buildBC domains edges []).map fun bc => ⟨vars, domains, bc⟩

/-- The per-pair compatibility test inside `_revise`: the `(xi, xj)` key is
consulted first, then `(xj, xi)` (reversing the value pair); with neither key
present no iteration of the inner loop ever sets `consistent`, hence `false`. -/
def supportOk (bc : BC) (xi : Var) (vi : Val) (xj : Var) (vj : Val) : Bool :=
  match lookupA bc (xi, xj) with
  | some s => decide ((vi, vj) ∈ s)
  | none =>
    match lookupA bc (xj, xi) with
    | some s => decide ((vj, vi) ∈ s)
    | none => false

/-- `_revise(xi, xj)`: collect the values of `domain(xi)` that have no
supporting value in `domain(xj)`, remove them from `domain(xi)`, and report
whether anything was removed. -/
def revise (bc : BC) (d : Domains) (xi xj : Var) : Bool × Domains :=
  let di := lookupD d xi
  let toRemove :=
    di.filter fun vi => !((lookupD d xj).any fun vj => supportOk bc xi vi xj vj)
  (!toRemove.isEmpty, updateD d xi (di.filter fun vi => !(decide (vi ∈ toRemove))))

/-- The re-enqueueing loop of `ac_3` after a successful revision of `xi`
against `xj`: for every constraint key `(var1, var2)`, enqueue `(var1, xi)`
when `var2 = xi` and `var1 ≠ xj`, else enqueue `(var2, xi)` when `var1 = xi`
and `var2 ≠ xj`. -/
def newArcs (bc : BC) (xi xj : Var) : List (Var × Var) :=
  bc.foldr (fun e acc =>
    (if e.1.2 = xi ∧ e.1.1 ≠ xj then [(e.1.1, xi)]
     else if e.1.1 = xi ∧ e.1.2 ≠ xj then [(e.1.2, xi)]
     else []) ++ acc) []

/-- Total number of values over all domains; the termination measure of the
AC-3 loop shrinks it on every successful revision. -/
def totalSize (d : Domains) : Nat :=
  (d.map fun e => e.2.length).sum

/-- The support test of `_revise` for a single value of `domain(xi)`: some
value of `domain(xj)` passes the compatibility check. -/
def hasSupport (bc : BC) (d : Domains) (xi xj : Var) (vi : Val) : Bool :=
  (lookupD d xj).any fun vj => supportOk bc xi vi xj vj

theorem lookupA_mem {κ ρ : Type} [DecidableEq κ] (l : List (κ × ρ)) (k : κ) (r : ρ)
    (h : lookupA l k = some r) : (k, r) ∈ l := by
  induction l with
  | nil => simp [lookupA] at h
  | cons e rest ih =>
    obtain ⟨a, b⟩ := e
    by_cases he : a = k
    · subst he
      simp [lookupA] at h
      subst h
      exact List.mem_cons_self _ _
    · simp only [lookupA, he, if_false] at h
      exact List.mem_cons_of_mem _ (ih h)

theorem updateD_lookupD_self (d : Domains) (v : Var) :
    updateD d v (lookupD d v) = d := by
  induction d with
  | nil => rfl
  | cons e rest ih =>
    obtain ⟨a, b⟩ := e
    by_cases he : a = v
    · subst he
      simp [updateD, lookupD, lookupA]
    · have hl : lookupD ((a, b) :: rest) v = lookupD rest v := by
        simp [lookupD, lookupA, he]
      simp only [hl]
      simp only [updateD, he, if_false]
      rw [ih]

theorem revise_fst (bc : BC) (d : Domains) (xi xj : Var) :
    (revise bc d xi xj).1 =
      !((lookupD d xi).filter fun vi => !hasSupport bc d xi xj vi).isEmpty := rfl

theorem revise_snd (bc : BC) (d : Domains) (xi xj : Var) :
    (revise bc d xi xj).2 = updateD d xi ((lookupD d xi).filter (hasSupport bc d xi xj)) := by
  have hcong : ((lookupD d xi).filter fun vi =>
      !(decide (vi ∈ (lookupD d xi).filter fun v =>
        !((lookupD d xj).any fun vj => supportOk bc xi v xj vj)))) =
      (lookupD d xi).filter (hasSupport bc d xi xj) :=
    List.filter_congr (by
      intro x hx
      by_cases h : hasSupport bc d xi xj x
      · simp only [hasSupport] at h
        simp [List.mem_filter, hx, h, hasSupport]
      · simp only [hasSupport, Bool.not_eq_true] at h
        simp [List.mem_filter, hx, h, hasSupport])
  show updateD d xi _ = _
  rw [hcong]

theorem revise_snd_of_fst_false (bc : BC) (d : Domains) (xi xj : Var)
    (h : (revise bc d xi xj).1 = false) : (revise bc d xi xj).2 = d := by
  rw [revise_fst] at h
  simp only [Bool.not_eq_false'] at h
  rw [List.isEmpty_iff] at h
  have hall : ∀ vi ∈ lookupD d xi, hasSupport bc d xi xj vi = true := by
    intro vi hvi
    have := List.filter_eq_nil_iff.mp h vi hvi
    simpa using this
  rw [revise_snd, List.filter_eq_self.mpr hall]
  exact updateD_lookupD_self d xi

theorem totalSize_updateD_lt (d : Domains) (v : Var) (dv nd : List Val)
    (hv : lookupA d v = some dv) (hlen : nd.length < dv.length) :
    totalSize (updateD d v nd) < totalSize d := by
  induction d with
  | nil => simp [lookupA] at hv
  | cons e rest ih =>
    obtain ⟨a, b⟩ := e
    by_cases he : a = v
    · subst he
      simp only [lookupA, if_true] at hv
      injection hv with hv
      subst hv
      simp only [updateD, if_true, totalSize, List.map_cons, List.sum_cons]
      omega
    · simp only [lookupA, he, if_false] at hv
      simp only [updateD, he, if_false]
      simp only [totalSize, List.map_cons, List.sum_cons] at ih ⊢
      have := ih hv
      omega

theorem length_filter_lt_of_mem_not {α : Type} (l : List α) (p : α → Bool) (x : α)
    (hx : x ∈ l) (hpx : p x = false) : (l.filter p).length < l.length := by
  induction l with
  | nil => cases hx
  | cons a rest ih =>
    rcases List.mem_cons.mp hx with rfl | hmem
    · simp only [List.filter_cons, hpx, Bool.false_eq_true, if_false, List.length_cons]
      exact Nat.lt_succ_of_le (rest.length_filter_le p)
    · by_cases hpa : p a = true
      · simp only [List.filter_cons, hpa, if_true, List.length_cons]
        exact Nat.succ_lt_succ (ih hmem)
      · simp only [Bool.not_eq_true] at hpa
        simp only [List.filter_cons, hpa, Bool.false_eq_true, if_false, List.length_cons]
        have := ih hmem
        omega

theorem revise_fst_true_elim (bc : BC) (d : Domains) (xi xj : Var)
    (h : (revise bc d xi xj).1 = true) :
    ∃ vi ∈ lookupD d xi, hasSupport bc d xi xj vi = false := by
  rw [revise_fst] at h
  simp only [Bool.not_eq_true'] at h
  rw [List.isEmpty_eq_false_iff_exists_mem] at h
  obtain ⟨x, hx⟩ := h
  rw [List.mem_filter] at hx
  exact ⟨x, hx.1, by simpa using hx.2⟩

theorem revise_totalSize_of_fst_true (bc : BC) (d : Domains) (xi xj : Var)
    (h : (revise bc d xi xj).1 = true) :
    totalSize (revise bc d xi xj).2 < totalSize d := by
  obtain ⟨vi, hvi, hns⟩ := revise_fst_true_elim bc d xi xj h
  have hkey : lookupA d xi = some (lookupD d xi) := by
    cases hl : lookupA d xi with
    | none =>
      exfalso
      have : lookupD d xi = [] := by simp [lookupD, hl]
      rw [this] at hvi
      cases hvi
    | some dv => simp [lookupD, hl]
  rw [revise_snd]
  exact totalSize_updateD_lt d xi (lookupD d xi) _ hkey
    (length_filter_lt_of_mem_not _ _ vi hvi hns)

theorem newArcs_length_le (bc : BC) (xi xj : Var) :
    (newArcs bc xi xj).length ≤ bc.length := by
  induction bc with
  | nil => simp [newArcs]
  | cons e rest ih =>
    simp only [newArcs, List.foldr_cons] at ih ⊢
    have hb : (if e.1.2 = xi ∧ e.1.1 ≠ xj then [(e.1.1, xi)]
        else if e.1.1 = xi ∧ e.1.2 ≠ xj then [(e.1.2, xi)] else []).length ≤ 1 := by
      split
      · simp
      · split <;> simp
    simp only [List.length_append, List.length_cons]
    omega

/-- The `while` loop of `ac_3` over the FIFO arc queue (`queue.get` pops the
front, `queue.put` appends at the back).  Fuel-indexed structural recursion:
`none` reports fuel exhaustion, which never happens for the bound passed by
`ac_3` (`ac3LoopF_isSome`), since every iteration either shortens the queue or
permanently removes a domain value. -/
def ac3LoopF : Nat → BC → Domains → List (Var × Var) → Option (Bool × Domains)
  | 0, _, _, _ => none
  | _ + 1, _, d, [] => some (true, d)
  | fuel + 1, bc, d, (xi, xj) :: rest =>
    match revise bc d xi xj with
    | (false, d1) => ac3LoopF fuel bc d1 rest
    | (true, d1) =>
      if (lookupD d1 xi).isEmpty then some (false, d1)
      else ac3LoopF fuel bc d1 (rest ++ newArcs bc xi xj)

/-- The fuel bound used by `ac_3`: an upper bound (plus one) on the number of
loop iterations, since each iteration either pops the queue without re-adding
(queue part) or removes a domain value while adding at most `bc.length`
arcs (domain part). -/
def ac3Fuel (bc : BC) (d : Domains) (queue : List (Var × Var)) : Nat :=
  totalSize d * (bc.length + 1) + queue.length + 1

theorem ac3LoopF_isSome (fuel : Nat) :
    ∀ (bc : BC) (d : Domains) (queue : List (Var × Var)),
      totalSize d * (bc.length + 1) + queue.length < fuel →
      (ac3LoopF fuel bc d queue).isSome := by
  induction fuel with
  | zero => intro bc d queue h; omega
  | succ fuel ih =>
    intro bc d queue h
    match queue with
    | [] => simp [ac3LoopF]
    | (xi, xj) :: rest =>
      simp only [ac3LoopF]
      cases hrev : revise bc d xi xj with
      | mk b d1 =>
        cases b with
        | false =>
          have hd : d1 = d := by
            have := revise_snd_of_fst_false bc d xi xj (by rw [hrev])
            rw [hrev] at this
            exact this
          subst hd
          simp only
          apply ih
          simp only [List.length_cons] at h
          omega
        | true =>
          simp only
          split
          · simp
          · apply ih
            have h1 : totalSize d1 < totalSize d := by
              have := revise_totalSize_of_fst_true bc d xi xj (by rw [hrev])
              rw [hrev] at this
              exact this
            have h2 : (newArcs bc xi xj).length ≤ bc.length := newArcs_length_le bc xi xj
            simp only [List.length_append, List.length_cons] at h ⊢
            have h3 : totalSize d1 * (bc.length + 1) + bc.length + 1
                ≤ totalSize d * (bc.length + 1) := by
              have hs : totalSize d1 + 1 ≤ totalSize d := h1
              calc totalSize d1 * (bc.length + 1) + bc.length + 1
                  = (totalSize d1 + 1) * (bc.length + 1) := by ring
                _ ≤ totalSize d * (bc.length + 1) := Nat.mul_le_mul_right _ hs
            omega

/-- `ac_3`: initialise the queue with every constraint key (in insertion
order), then run the loop; returns the flag together with the final
`self.domains`.  The fuel always suffices (`ac3LoopF_isSome`), so the
exhaustion fallback is unreachable. -/
def ac_3 (st : CSPState) : Bool × Domains :=
  match ac3LoopF (ac3Fuel st.bc st.domains (st.bc.map fun e => e.1))
      st.bc st.domains (st.bc.map fun e => e.1) with
  | some r => r
  | none => (false, st.domains)

theorem ac_3_eq_loop (st : CSPState) :
    ac3LoopF (ac3Fuel st.bc st.domains (st.bc.map fun e => e.1))
      st.bc st.domains (st.bc.map fun e => e.1) = some (ac_3 st) := by
  have h := ac3LoopF_isSome (ac3Fuel st.bc st.domains (st.bc.map fun e => e.1))
    st.bc st.domains (st.bc.map fun e => e.1) (by simp [ac3Fuel])
  unfold ac_3
  cases hl : ac3LoopF (ac3Fuel st.bc st.domains (st.bc.map fun e => e.1))
      st.bc st.domains (st.bc.map fun e => e.1) with
  | none => rw [hl] at h; simp at h
  | some r => simp

/-- Either direction of an arc carries a registered constraint key. -/
def hasKeyB (bc : BC) (xi xj : Var) : Bool :=
  (lookupA bc (xi, xj)).isSome || (lookupA bc (xj, xi)).isSome

/-- The `ac_3` loop with `_revise` guarded by the claim C10 safety condition:
identical control flow, but aborts (`none`) if an arc with no matching
constraint key in either direction is ever dequeued, i.e. exactly when the
keyless branch of `_revise` would run. -/
def ac3LoopCheckedF : Nat → BC → Domains → List (Var × Var) → Option (Bool × Domains)
  | 0, _, _, _ => none
  | _ + 1, _, d, [] => some (true, d)
  | fuel + 1, bc, d, (xi, xj) :: rest =>
    if hasKeyB bc xi xj then
      match revise bc d xi xj with
      | (false, d1) => ac3LoopCheckedF fuel bc d1 rest
      | (true, d1) =>
        if (lookupD d1 xi).isEmpty then some (false, d1)
        else ac3LoopCheckedF fuel bc d1 (rest ++ newArcs bc xi xj)
    else none

/-- The guarded `ac_3`: same fuel, same initial queue. -/
def ac3Checked (st : CSPState) : Option (Bool × Domains) :=
  ac3LoopCheckedF (ac3Fuel st.bc st.domains (st.bc.map fun e => e.1))
    st.bc st.domains (st.bc.map fun e => e.1)

/-- The per-assigned-variable check of `_is_consistent`: the `(var, w)` key is
consulted first, then `(w, var)` (with the value pair reversed); with neither
key present the pair is unconstrained, hence `true`. -/
def pairOk (bc : BC) (var : Var) (value : Val) (w : Var) (vw : Val) : Bool :=
  match lookupA bc (var, w) with
  | some s => decide ((value, vw) ∈ s)
  | none =>
    match lookupA bc (w, var) with
    | some s => decide ((vw, value) ∈ s)
    | none => true

/-- `_is_consistent(var, value, assignment)`. -/
def isConsistentA (bc : BC) (a : Assignment) (var : Var) (value : Val) : Bool :=
  a.all fun e => pairOk bc var value e.1 e.2

/-- `_make_inference` in its active configuration (OPTION 2, no inference):
returns an empty inference record and leaves the domains untouched.  (The
OPTION 1 AC-3 inference block is commented out in the source.) -/
def make_inference (d : Domains) (_var : Var) (_value : Val) (_a : Assignment) :
    Option (List (Var × List Val)) × Domains :=
  (some [], d)

/-- `_restore_inferences`: for each recorded variable, add the removed values
back into its domain (`set.update`, adding only missing elements). -/
def restore_inferences (d : Domains) (inf : List (Var × List Val)) : Domains :=
  inf.foldl (fun d e => updateD d e.1 (e.2.foldl addElem (lookupD d e.1))) d

/-- `del assignment[var]`: drop the entry for `var` (the keys of the
assignment dict are unique, so filtering equals deleting the single entry). -/
def removeKey (a : Assignment) (v : Var) : Assignment :=
  a.filter fun e => !(decide (e.1 = v))

/-- The `for value in list(self.domains[var])` loop of `backtrack`: try each
candidate value in turn, undoing the assignment (and restoring the inference
record) after a failed recursive call.  The recursive `backtrack` call is
passed in as the function argument `bt`, so that the loop is structurally
recursive on the value list; `none` propagates fuel exhaustion from `bt`. -/
def tryValuesGo (bt : Domains → Assignment → Option (Option Assignment × Domains × Assignment))
    (bc : BC) (var : Var) :
    List Val → Domains → Assignment → Option (Option Assignment × Domains × Assignment)
  | [], d, a => some (none, d, a)
  | value :: rest, d, a =>
    if isConsistentA bc a var value then
      match make_inference d var value (a ++ [(var, value)]) with
      | (some inf, d1) =>
        match bt d1 (a ++ [(var, value)]) with
        | none => none
        | some (some r, d2, a2) => some (some r, d2, a2)
        | some (none, d2, a2) =>
          tryValuesGo bt bc var rest (restore_inferences d2 inf) (removeKey a2 var)
      | (none, d1) => tryValuesGo bt bc var rest d1 (removeKey (a ++ [(var, value)]) var)
    else tryValuesGo bt bc var rest d a

/-- One invocation of the inner `backtrack(assignment)` closure of
`backtracking_search`, threading the mutable state (`self.domains` and the
`assignment` dict) explicitly; the result triple is (return value, final
domains, final assignment).  The fuel argument bounds the recursion depth and
`none` reports exhaustion; `backtracking_search` passes a bound that is never
reached (`backtrackF_isSome`).  The `[]` case of the unassigned-variable list
would raise `IndexError` (`unassigned_vars[0]`) in Python and is likewise
mapped to `none`; it is unreachable for duplicate-free variable lists. -/
def backtrackF : Nat → List Var → BC → Domains → Assignment →
    Option (Option Assignment × Domains × Assignment)
  | 0, _, _, _, _ => none
  | fuel + 1, vars, bc, d, a =>
    if a.length = vars.length then some (some a, d, a)
    else
      match vars.filter (fun v => !(lookupA a v).isSome) with
      | [] => none
      | var :: _ => tryValuesGo (backtrackF fuel vars bc) bc var (lookupD d var) d a

/-- `backtracking_search`: run `backtrack` on the empty assignment (timing and
printing are ignored); returns the result together with the final
`self.domains`.  The fuel `vars.length + 1` always suffices
(`backtrackF_isSome`), so the exhaustion fallback is unreachable. -/
def backtracking_search (st : CSPState) : Option Assignment × Domains :=
  match backtrackF (st.vars.length + 1) st.vars st.bc st.domains [] with
  | some (r, d1, _) => (r, d1)
  | none => (none, st.domains)

/-- `alldiff`: the edges `(variables[i], variables[j])` for all index pairs
`i < j`, in the source's iteration order. -/
def alldiff (vs : List Var) : List (Var × Var) :=
  (List.range (vs.length - 1)).flatMap fun i =>
    (List.range' (i + 1) (vs.length - (i + 1))).map fun j =>
      (vs.getD i "", vs.getD j "")

/-- Brute-force enumeration of all total assignments, following the spec's
"known-by-brute-force solution set": one entry per variable, in declaration
order, each value drawn from the variable's current domain. -/
def allAssignments (d : Domains) : List Var → List Assignment
  | [] => [[]]
  | v :: rest => (lookupD d v).flatMap fun value =>
      (allAssignments d rest).map fun a => (v, value) :: a

/-- A total assignment satisfies every registered binary constraint: for each
constraint key both endpoints are assigned and the value pair is in the
compatible-pairs set stored under that key. -/
def satisfiesAll (bc : BC) (a : Assignment) : Bool :=
  bc.all fun e =>
    match lookupA a e.1.1, lookupA a e.1.2 with
    | some vx, some vy => decide ((vx, vy) ∈ e.2)
    | _, _ => false

/-- The spec's brute-force solution set of a CSP instance. -/
def bruteSolutions (st : CSPState) : List Assignment :=
  (allAssignments st.domains st.vars).filter (satisfiesAll st.bc)

/-- The list of registered constraint keys, in insertion order (the initial
AC-3 queue). -/
def keysList (bc : BC) : List (Var × Var) :=
  bc.map fun e => e.1

/-- The key-direction arc-consistency property for one arc: every value in
the first variable's domain has a supporting value in the second variable's
domain under the code's compatibility check. -/
def arcConsistent (bc : BC) (d : Domains) (p : Var × Var) : Prop :=
  ∀ vi ∈ lookupD d p.1, ∃ vj ∈ lookupD d p.2, supportOk bc p.1 vi p.2 vj = true

/-- Arc consistency of every registered constraint key. -/
def keysConsistent (bc : BC) (d : Domains) : Prop :=
  ∀ p ∈ keysList bc, arcConsistent bc d p

/-- The structural invariants of `binary_constraints` established by
`CSP.__init__` for irreflexive edge lists: keys relate distinct variables and
are unique, each compatible-pairs set is closed under swapping, and sets
stored under the two opposite key orders agree. -/
structure BCGood (bc : BC) : Prop where
  irrefl : ∀ e ∈ bc, e.1.1 ≠ e.1.2
  symm : ∀ e ∈ bc, ∀ u v : Val, (u, v) ∈ e.2 → (v, u) ∈ e.2
  coh : ∀ e ∈ bc, ∀ s, lookupA bc (e.1.2, e.1.1) = some s → ∀ p : Val × Val, p ∈ s ↔ p ∈ e.2
  nodupKeys : (keysList bc).Nodup

theorem lookupA_isSome_iff {κ ρ : Type} [DecidableEq κ] (l : List (κ × ρ)) (k : κ) :
    (lookupA l k).isSome ↔ k ∈ l.map fun e => e.1 := by
  induction l with
  | nil => simp [lookupA]
  | cons e rest ih =>
    by_cases he : e.1 = k
    · simp [lookupA, he]
    · simp [lookupA, he, ih, Ne.symm he]

theorem lookupA_eq_none_iff {κ ρ : Type} [DecidableEq κ] (l : List (κ × ρ)) (k : κ) :
    lookupA l k = none ↔ ∀ e ∈ l, e.1 ≠ k := by
  constructor
  · intro h e he' hk
    have hs : (lookupA l k).isSome :=
      (lookupA_isSome_iff l k).mpr (List.mem_map.mpr ⟨e, he', hk⟩)
    rw [h] at hs
    cases hs
  · intro h
    cases hl : lookupA l k with
    | none => rfl
    | some r => exact absurd rfl (h (k, r) (lookupA_mem l k r hl))

theorem lookupA_of_mem_nodup {κ ρ : Type} [DecidableEq κ] (l : List (κ × ρ)) (k : κ) (r : ρ)
    (hnd : (l.map fun e => e.1).Nodup) (hm : (k, r) ∈ l) : lookupA l k = some r := by
  induction l with
  | nil => cases hm
  | cons e rest ih =>
    simp only [List.map_cons, List.nodup_cons] at hnd
    rcases List.mem_cons.mp hm with rfl | hm2
    · simp [lookupA]
    · have hne : e.1 ≠ k := by
        intro hk
        exact hnd.1 (hk ▸ (List.mem_map.mpr ⟨(k, r), hm2, rfl⟩))
      simp only [lookupA, hne, if_false]
      exact ih hnd.2 hm2

theorem mem_addElem {α : Type} [DecidableEq α] (s : List α) (x y : α) :
    y ∈ addElem s x ↔ y ∈ s ∨ y = x := by
  unfold addElem
  by_cases hx : x ∈ s
  · rw [if_pos hx]
    constructor
    · exact Or.inl
    · rintro (h | rfl)
      · exact h
      · exact hx
  · rw [if_neg hx]
    simp

theorem mem_constraintPairs (d1 d2 : List Val) (p : Val × Val) :
    p ∈ constraintPairs d1 d2 ↔
      ((p.1 ∈ d1 ∧ p.2 ∈ d2) ∨ (p.1 ∈ d2 ∧ p.2 ∈ d1)) ∧ p.1 ≠ p.2 := by
  have inner : ∀ (v1 : Val) (acc : List (Val × Val)),
      p ∈ d2.foldl (fun s v2 =>
        if v1 ≠ v2 then addElem (addElem s (v1, v2)) (v2, v1) else s) acc ↔
      p ∈ acc ∨ ∃ v2 ∈ d2, v1 ≠ v2 ∧ (p = (v1, v2) ∨ p = (v2, v1)) := by
    intro v1
    induction d2 with
    | nil => simp
    | cons w rest ih =>
      intro acc
      simp only [List.foldl_cons]
      by_cases hw : v1 ≠ w
      · rw [if_pos hw, ih]
        simp only [mem_addElem]
        constructor
        · rintro (((h | rfl) | rfl) | ⟨v2, hv2, hne, hp⟩)
          · exact Or.inl h
          · exact Or.inr ⟨w, List.mem_cons_self _ _, hw, Or.inl rfl⟩
          · exact Or.inr ⟨w, List.mem_cons_self _ _, hw, Or.inr rfl⟩
          · exact Or.inr ⟨v2, List.mem_cons_of_mem _ hv2, hne, hp⟩
        · rintro (h | ⟨v2, hv2, hne, hp⟩)
          · exact Or.inl (Or.inl (Or.inl h))
          · rcases List.mem_cons.mp hv2 with rfl | hv2r
            · rcases hp with rfl | rfl
              · exact Or.inl (Or.inl (Or.inr rfl))
              · exact Or.inl (Or.inr rfl)
            · exact Or.inr ⟨v2, hv2r, hne, hp⟩
      · rw [if_neg hw, ih]
        push_neg at hw
        subst hw
        constructor
        · rintro (h | ⟨v2, hv2, hne, hp⟩)
          · exact Or.inl h
          · exact Or.inr ⟨v2, List.mem_cons_of_mem _ hv2, hne, hp⟩
        · rintro (h | ⟨v2, hv2, hne, hp⟩)
          · exact Or.inl h
          · rcases List.mem_cons.mp hv2 with rfl | hv2r
            · exact absurd rfl hne
            · exact Or.inr ⟨v2, hv2r, hne, hp⟩
  have outer : ∀ acc : List (Val × Val),
      p ∈ d1.foldl (fun s v1 => d2.foldl (fun s v2 =>
        if v1 ≠ v2 then addElem (addElem s (v1, v2)) (v2, v1) else s) s) acc ↔
      p ∈ acc ∨ ∃ v1 ∈ d1, ∃ v2 ∈ d2, v1 ≠ v2 ∧ (p = (v1, v2) ∨ p = (v2, v1)) := by
    induction d1 with
    | nil => simp
    | cons u rest ih =>
      intro acc
      simp only [List.foldl_cons]
      rw [ih, inner]
      constructor
      · rintro ((h | ⟨v2, hv2, hne, hp⟩) | ⟨v1, hv1, v2, hv2, hne, hp⟩)
        · exact Or.inl h
        · exact Or.inr ⟨u, List.mem_cons_self _ _, v2, hv2, hne, hp⟩
        · exact Or.inr ⟨v1, List.mem_cons_of_mem _ hv1, v2, hv2, hne, hp⟩
      · rintro (h | ⟨v1, hv1, v2, hv2, hne, hp⟩)
        · exact Or.inl (Or.inl h)
        · rcases List.mem_cons.mp hv1 with rfl | hv1r
          · exact Or.inl (Or.inr ⟨v2, hv2, hne, hp⟩)
          · exact Or.inr ⟨v1, hv1r, v2, hv2, hne, hp⟩
  unfold constraintPairs
  rw [outer]
  simp only [List.not_mem_nil, false_or]
  obtain ⟨p1, p2⟩ := p
  constructor
  · rintro ⟨v1, hv1, v2, hv2, hne, (h | h)⟩
    · injection h with h1 h2
      subst h1
      subst h2
      exact ⟨Or.inl ⟨hv1, hv2⟩, hne⟩
    · injection h with h1 h2
      subst h1
      subst h2
      exact ⟨Or.inr ⟨hv2, hv1⟩, fun hc => hne hc.symm⟩
  · rintro ⟨(⟨h1, h2⟩ | ⟨h1, h2⟩), hne⟩
    · exact ⟨p1, h1, p2, h2, hne, Or.inl rfl⟩
    · exact ⟨p2, h2, p1, h1, fun hc => hne hc.symm, Or.inr rfl⟩

theorem map_fst_insertA {κ ρ : Type} [DecidableEq κ] (l : List (κ × ρ)) (k : κ) (r : ρ) :
    (insertA l k r).map (fun e => e.1) =
      if k ∈ l.map (fun e => e.1) then l.map (fun e => e.1)
      else l.map (fun e => e.1) ++ [k] := by
  induction l with
  | nil => simp [insertA]
  | cons e rest ih =>
    by_cases he : e.1 = k
    · subst he
      simp [insertA]
    · simp only [insertA, he, if_false, List.map_cons, ih]
      by_cases hk : k ∈ rest.map fun e => e.1
      · rw [if_pos hk, if_pos (List.mem_cons_of_mem _ hk)]
      · rw [if_neg hk, if_neg (by
          intro hc
          rcases List.mem_cons.mp hc with hc | hc
          · exact he hc.symm
          · exact hk hc)]
        simp

theorem nodup_keys_insertA {κ ρ : Type} [DecidableEq κ] (l : List (κ × ρ)) (k : κ) (r : ρ)
    (hnd : (l.map fun e => e.1).Nodup) : ((insertA l k r).map fun e => e.1).Nodup := by
  rw [map_fst_insertA]
  by_cases hk : k ∈ l.map fun e => e.1
  · rw [if_pos hk]
    exact hnd
  · rw [if_neg hk]
    simp [List.nodup_append, hnd, hk]

theorem mem_insertA_nodup {κ ρ : Type} [DecidableEq κ] (l : List (κ × ρ)) (k : κ) (r : ρ)
    (e : κ × ρ) (hnd : (l.map fun f => f.1).Nodup) :
    e ∈ insertA l k r ↔ e = (k, r) ∨ (e ∈ l ∧ e.1 ≠ k) := by
  induction l with
  | nil => simp [insertA]
  | cons f rest ih =>
    simp only [List.map_cons, List.nodup_cons] at hnd
    by_cases hf : f.1 = k
    · subst hf
      simp only [insertA, if_pos rfl]
      constructor
      · intro hm
        rcases List.mem_cons.mp hm with rfl | hm2
        · exact Or.inl rfl
        · refine Or.inr ⟨List.mem_cons_of_mem _ hm2, ?_⟩
          intro hk
          exact hnd.1 (hk ▸ List.mem_map.mpr ⟨e, hm2, rfl⟩)
      · rintro (rfl | ⟨hm, hne⟩)
        · exact List.mem_cons_self _ _
        · rcases List.mem_cons.mp hm with rfl | hm2
          · exact absurd rfl hne
          · exact List.mem_cons_of_mem _ hm2
    · simp only [insertA, hf, if_false]
      constructor
      · intro hm
        rcases List.mem_cons.mp hm with rfl | hm2
        · exact Or.inr ⟨List.mem_cons_self _ _, hf⟩
        · rcases (ih hnd.2).mp hm2 with rfl | ⟨hm3, hne⟩
          · exact Or.inl rfl
          · exact Or.inr ⟨List.mem_cons_of_mem _ hm3, hne⟩
      · rintro (rfl | ⟨hm, hne⟩)
        · exact List.mem_cons_of_mem _ ((ih hnd.2).mpr (Or.inl rfl))
        · rcases List.mem_cons.mp hm with rfl | hm2
          · exact List.mem_cons_self _ _
          · exact List.mem_cons_of_mem _ ((ih hnd.2).mpr (Or.inr ⟨hm2, hne⟩))

/-- The shape of every entry of `binary_constraints` as built by
`CSP.__init__`: distinct endpoint variables, and the compatible-pairs set is
exactly the symmetric inequality relation over the two construction-time
domains. -/
def GoodEntry (domains : Domains) (e : (Var × Var) × List (Val × Val)) : Prop :=
  e.1.1 ≠ e.1.2 ∧ ∀ p : Val × Val, p ∈ e.2 ↔
    (((p.1 ∈ lookupD domains e.1.1 ∧ p.2 ∈ lookupD domains e.1.2) ∨
      (p.1 ∈ lookupD domains e.1.2 ∧ p.2 ∈ lookupD domains e.1.1)) ∧ p.1 ≠ p.2)

/-- One step of the `__init__` loop: inserting a good entry preserves the
accumulator invariants, and every key of the result is an old key or the
inserted one. -/
theorem insertA_goodStep (domains : Domains) (acc : BC) (v1 v2 : Var)
    (ps : List (Val × Val))
    (hacc : ∀ e ∈ acc, GoodEntry domains e) (hnd : (keysList acc).Nodup)
    (hgood : GoodEntry domains ((v1, v2), ps)) :
    (∀ f ∈ insertA acc (v1, v2) ps, GoodEntry domains f) ∧
      (keysList (insertA acc (v1, v2) ps)).Nodup ∧
      ∀ k ∈ keysList (insertA acc (v1, v2) ps), k ∈ keysList acc ∨ k = (v1, v2) := by
  refine ⟨?_, nodup_keys_insertA acc (v1, v2) ps hnd, ?_⟩
  · intro f hf
    rcases (mem_insertA_nodup acc (v1, v2) ps f hnd).mp hf with rfl | ⟨hm, _⟩
    · exact hgood
    · exact hacc f hm
  · intro k hk
    unfold keysList at hk
    rw [map_fst_insertA] at hk
    by_cases hmem : (v1, v2) ∈ acc.map fun f => f.1
    · rw [if_pos hmem] at hk
      exact Or.inl hk
    · rw [if_neg hmem] at hk
      rcases List.mem_append.mp hk with hk3 | hk3
      · exact Or.inl hk3
      · simp only [List.mem_singleton] at hk3
        exact Or.inr hk3

theorem buildBC_good (domains : Domains) :
    ∀ (edges : List (Var × Var)) (acc bc : BC),
      (∀ e ∈ edges, e.1 ≠ e.2) →
      (∀ e ∈ acc, GoodEntry domains e) → (keysList acc).Nodup →
      buildBC domains edges acc = some bc →
      (∀ e ∈ bc, GoodEntry domains e) ∧ (keysList bc).Nodup ∧
      (∀ k ∈ keysList bc, k ∈ keysList acc ∨ k ∈ edges) := by
  intro edges
  induction edges with
  | nil =>
    intro acc bc _ hacc hnd hb
    simp only [buildBC] at hb
    injection hb with hb
    subst hb
    exact ⟨hacc, hnd, fun k hk => Or.inl hk⟩
  | cons e rest ih =>
    intro acc bc hirr hacc hnd hb
    obtain ⟨v1, v2⟩ := e
    simp only [buildBC] at hb
    have hirr1 : v1 ≠ v2 := hirr (v1, v2) (List.mem_cons_self _ _)
    cases h1 : lookupA domains v1 with
    | none => rw [h1] at hb; cases hb
    | some d1 =>
      rw [h1] at hb
      simp only at hb
      by_cases hde : d1.isEmpty
      · rw [if_pos hde] at hb
        have hd1nil : d1 = [] := by
          cases d1 with
          | nil => rfl
          | cons a l => simp [List.isEmpty] at hde
        have hgood : GoodEntry domains ((v1, v2), ([] : List (Val × Val))) := by
          refine ⟨hirr1, fun p => ?_⟩
          have hd1 : lookupD domains v1 = [] := by simp [lookupD, h1, hd1nil]
          simp [hd1]
        obtain ⟨s1, s2, s3⟩ := insertA_goodStep domains acc v1 v2 [] hacc hnd hgood
        obtain ⟨g1, g2, g3⟩ := ih (insertA acc (v1, v2) []) bc
          (fun f hf => hirr f (List.mem_cons_of_mem _ hf)) s1 s2 hb
        refine ⟨g1, g2, fun k hk => ?_⟩
        rcases g3 k hk with hk2 | hk2
        · rcases s3 k hk2 with hk3 | rfl
          · exact Or.inl hk3
          · exact Or.inr (List.mem_cons_self _ _)
        · exact Or.inr (List.mem_cons_of_mem _ hk2)
      · rw [if_neg hde] at hb
        cases h2 : lookupA domains v2 with
        | none => rw [h2] at hb; cases hb
        | some d2 =>
          rw [h2] at hb
          simp only at hb
          have hgood : GoodEntry domains ((v1, v2), constraintPairs d1 d2) := by
            refine ⟨hirr1, fun p => ?_⟩
            rw [mem_constraintPairs]
            have hd1 : lookupD domains v1 = d1 := by simp [lookupD, h1]
            have hd2 : lookupD domains v2 = d2 := by simp [lookupD, h2]
            rw [hd1, hd2]
          obtain ⟨s1, s2, s3⟩ := insertA_goodStep domains acc v1 v2 (constraintPairs d1 d2)
            hacc hnd hgood
          obtain ⟨g1, g2, g3⟩ := ih (insertA acc (v1, v2) (constraintPairs d1 d2)) bc
            (fun f hf => hirr f (List.mem_cons_of_mem _ hf)) s1 s2 hb
          refine ⟨g1, g2, fun k hk => ?_⟩
          rcases g3 k hk with hk2 | hk2
          · rcases s3 k hk2 with hk3 | rfl
            · exact Or.inl hk3
            · exact Or.inr (List.mem_cons_self _ _)
          · exact Or.inr (List.mem_cons_of_mem _ hk2)

/-- `CSP.__init__` with an irreflexive edge list establishes the
`binary_constraints` invariants, and every key comes from an edge. -/
theorem buildCSP_good (vars : List Var) (domains : Domains) (edges : List (Var × Var))
    (st : CSPState) (hirr : ∀ e ∈ edges, e.1 ≠ e.2)
    (h : buildCSP vars domains edges = some st) :
    BCGood st.bc ∧ (∀ k ∈ keysList st.bc, k ∈ edges) ∧
      st.vars = vars ∧ st.domains = domains := by
  unfold buildCSP at h
  cases hb : buildBC domains edges [] with
  | none => rw [hb] at h; cases h
  | some bc =>
    rw [hb] at h
    simp only [Option.map_some'] at h
    injection h with h
    subst h
    obtain ⟨g1, g2, g3⟩ := buildBC_good domains edges [] bc hirr (by simp) (by simp [keysList]) hb
    refine ⟨⟨fun e he => (g1 e he).1, ?_, ?_, g2⟩, ?_, rfl, rfl⟩
    · intro e he u v huv
      have hg := (g1 e he).2
      rw [hg (u, v)] at huv
      rw [hg (v, u)]
      obtain ⟨hor, hne⟩ := huv
      refine ⟨?_, fun hc => hne hc.symm⟩
      rcases hor with ⟨ha, hb⟩ | ⟨ha, hb⟩
      · exact Or.inr ⟨hb, ha⟩
      · exact Or.inl ⟨hb, ha⟩
    · intro e he s hs p
      have hg1 := (g1 e he).2
      have he2 : ((e.1.2, e.1.1), s) ∈ bc := lookupA_mem _ _ _ hs
      have hg2 := (g1 _ he2).2
      rw [hg1 p, hg2 p]
      constructor
      · rintro ⟨hor, hne⟩
        exact ⟨Or.symm hor, hne⟩
      · rintro ⟨hor, hne⟩
        exact ⟨Or.symm hor, hne⟩
    · intro k hk
      rcases g3 k hk with hk2 | hk2
      · simp [keysList] at hk2
      · exact hk2

/-- Under the construction invariants the compatibility test of `_revise` is
symmetric in its two variable/value pairs. -/
theorem supportOk_symm (bc : BC) (hg : BCGood bc) (x : Var) (u : Val) (y : Var) (v : Val) :
    supportOk bc x u y v = supportOk bc y v x u := by
  cases hxy : lookupA bc (x, y) with
  | some s =>
    cases hyx : lookupA bc (y, x) with
    | some s2 =>
      have he : ((x, y), s) ∈ bc := lookupA_mem _ _ _ hxy
      have hcoh := hg.coh ((x, y), s) he s2 hyx
      have hsymm := hg.symm ((x, y), s) he
      have hiff : ((u, v) ∈ s) ↔ ((v, u) ∈ s2) := by
        rw [hcoh (v, u)]
        exact ⟨fun h => hsymm u v h, fun h => hsymm v u h⟩
      simp only [supportOk, hxy, hyx]
      exact decide_eq_decide.mpr hiff
    | none => simp only [supportOk, hxy, hyx]
  | none =>
    cases hyx : lookupA bc (y, x) with
    | some s2 => simp only [supportOk, hxy, hyx]
    | none => simp only [supportOk, hxy, hyx]

theorem lookupA_updateD_ne (d : Domains) (v w : Var) (nd : List Val) (hne : w ≠ v) :
    lookupA (updateD d v nd) w = lookupA d w := by
  induction d with
  | nil => rfl
  | cons e rest ih =>
    by_cases he : e.1 = v
    · simp only [updateD, he, if_true]
      have h1 : v ≠ w := Ne.symm hne
      have h2 : e.1 ≠ w := by rw [he]; exact h1
      simp [lookupA, h1, h2]
    · simp only [updateD, he, if_false, lookupA]
      by_cases hw : e.1 = w
      · simp [hw]
      · simp [hw, ih]

theorem lookupD_updateD_ne (d : Domains) (v w : Var) (nd : List Val) (hne : w ≠ v) :
    lookupD (updateD d v nd) w = lookupD d w := by
  simp [lookupD, lookupA_updateD_ne d v w nd hne]

theorem updateD_of_not_key (d : Domains) (v : Var) (nd : List Val)
    (h : lookupA d v = none) : updateD d v nd = d := by
  induction d with
  | nil => rfl
  | cons e rest ih =>
    by_cases he : e.1 = v
    · simp [lookupA, he] at h
    · simp only [lookupA, he, if_false] at h
      simp [updateD, he, ih h]

theorem lookupA_updateD_self (d : Domains) (v : Var) (dv nd : List Val)
    (h : lookupA d v = some dv) : lookupA (updateD d v nd) v = some nd := by
  induction d with
  | nil => cases h
  | cons e rest ih =>
    by_cases he : e.1 = v
    · simp [updateD, he, lookupA]
    · simp only [lookupA, he, if_false] at h
      simp [updateD, he, lookupA, ih h]

theorem lookupA_eq_some_of_lookupD_ne_nil (d : Domains) (v : Var)
    (h : lookupD d v ≠ []) : lookupA d v = some (lookupD d v) := by
  cases hl : lookupA d v with
  | none => exact absurd (by simp [lookupD, hl]) h
  | some dv => simp [lookupD, hl]

theorem lookupD_revise_self (bc : BC) (d : Domains) (xi xj : Var) :
    lookupD (revise bc d xi xj).2 xi = (lookupD d xi).filter (hasSupport bc d xi xj) := by
  rw [revise_snd]
  cases hl : lookupA d xi with
  | none =>
    rw [updateD_of_not_key _ _ _ hl]
    simp [lookupD, hl]
  | some dv =>
    have : lookupD d xi = dv := by simp [lookupD, hl]
    simp [lookupD, lookupA_updateD_self d xi dv _ hl]

theorem lookupD_revise_ne (bc : BC) (d : Domains) (xi xj w : Var) (hne : w ≠ xi) :
    lookupD (revise bc d xi xj).2 w = lookupD d w := by
  rw [revise_snd]
  exact lookupD_updateD_ne _ _ _ _ hne

theorem hasSupport_iff (bc : BC) (d : Domains) (xi xj : Var) (vi : Val) :
    hasSupport bc d xi xj vi = true ↔
      ∃ vj ∈ lookupD d xj, supportOk bc xi vi xj vj = true := by
  simp [hasSupport, List.any_eq_true]

theorem arcConsistent_of_revise_false (bc : BC) (d : Domains) (xi xj : Var)
    (h : (revise bc d xi xj).1 = false) : arcConsistent bc d (xi, xj) := by
  rw [revise_fst] at h
  simp only [Bool.not_eq_false'] at h
  rw [List.isEmpty_iff] at h
  intro vi hvi
  have := List.filter_eq_nil_iff.mp h vi hvi
  simp only [Bool.not_eq_true', Bool.not_eq_false] at this
  exact (hasSupport_iff bc d xi xj vi).mp this

theorem revise_eq_of_arcConsistent (bc : BC) (d : Domains) (xi xj : Var)
    (h : arcConsistent bc d (xi, xj)) : revise bc d xi xj = (false, d) := by
  have hfst : (revise bc d xi xj).1 = false := by
    rw [revise_fst]
    simp only [Bool.not_eq_false']
    rw [List.isEmpty_iff, List.filter_eq_nil_iff]
    intro vi hvi
    have := h vi hvi
    simp only [Bool.not_eq_true', Bool.not_eq_false]
    exact (hasSupport_iff bc d xi xj vi).mpr this
  have hsnd := revise_snd_of_fst_false bc d xi xj hfst
  exact Prod.ext hfst hsnd

theorem arcConsistent_revise_self (bc : BC) (d : Domains) (xi xj : Var) (hne : xi ≠ xj) :
    arcConsistent bc (revise bc d xi xj).2 (xi, xj) := by
  intro vi hvi
  rw [lookupD_revise_self] at hvi
  rw [List.mem_filter] at hvi
  have := (hasSupport_iff bc d xi xj vi).mp hvi.2
  rw [lookupD_revise_ne bc d xi xj xj (Ne.symm hne)]
  exact this

theorem arcConsistent_revise_of_snd_ne (bc : BC) (d : Domains) (xi xj : Var)
    (p : Var × Var) (hne : p.2 ≠ xi) (h : arcConsistent bc d p) :
    arcConsistent bc (revise bc d xi xj).2 p := by
  intro vi hvi
  rw [lookupD_revise_ne bc d xi xj p.2 hne]
  by_cases hp1 : p.1 = xi
  · rw [hp1, lookupD_revise_self, List.mem_filter] at hvi
    exact h vi (hp1 ▸ hvi.1)
  · rw [lookupD_revise_ne bc d xi xj p.1 hp1] at hvi
    exact h vi hvi

theorem arcConsistent_revise_excluded (bc : BC) (hg : BCGood bc) (d : Domains)
    (xi xj : Var) (hne : xi ≠ xj) (h : arcConsistent bc d (xj, xi)) :
    arcConsistent bc (revise bc d xi xj).2 (xj, xi) := by
  intro v hv
  rw [lookupD_revise_ne bc d xi xj xj (Ne.symm hne)] at hv
  obtain ⟨u, hu, hsup⟩ := h v hv
  refine ⟨u, ?_, hsup⟩
  rw [lookupD_revise_self, List.mem_filter]
  refine ⟨hu, ?_⟩
  rw [hasSupport_iff]
  refine ⟨v, hv, ?_⟩
  rw [supportOk_symm bc hg xi u xj v]
  exact hsup

theorem mem_newArcs_iff (bc : BC) (xi xj : Var) (p : Var × Var) :
    p ∈ newArcs bc xi xj ↔ ∃ e ∈ bc,
      (e.1.2 = xi ∧ e.1.1 ≠ xj ∧ p = (e.1.1, xi)) ∨
      (¬(e.1.2 = xi ∧ e.1.1 ≠ xj) ∧ e.1.1 = xi ∧ e.1.2 ≠ xj ∧ p = (e.1.2, xi)) := by
  induction bc with
  | nil => simp [newArcs]
  | cons e rest ih =>
    simp only [newArcs, List.foldr_cons] at ih ⊢
    rw [List.mem_append, ih]
    constructor
    · rintro (hp | ⟨f, hf, hcase⟩)
      · by_cases h1 : e.1.2 = xi ∧ e.1.1 ≠ xj
        · rw [if_pos h1] at hp
          simp only [List.mem_singleton] at hp
          exact ⟨e, List.mem_cons_self _ _, Or.inl ⟨h1.1, h1.2, hp⟩⟩
        · rw [if_neg h1] at hp
          by_cases h2 : e.1.1 = xi ∧ e.1.2 ≠ xj
          · rw [if_pos h2] at hp
            simp only [List.mem_singleton] at hp
            exact ⟨e, List.mem_cons_self _ _, Or.inr ⟨h1, h2.1, h2.2, hp⟩⟩
          · rw [if_neg h2] at hp
            cases hp
      · exact ⟨f, List.mem_cons_of_mem _ hf, hcase⟩
    · rintro ⟨f, hf, hcase⟩
      rcases List.mem_cons.mp hf with rfl | hfr
      · left
        rcases hcase with ⟨h1, h2, rfl⟩ | ⟨h1, h2, h3, rfl⟩
        · rw [if_pos ⟨h1, h2⟩]
          simp
        · rw [if_neg h1, if_pos ⟨h2, h3⟩]
          simp
      · exact Or.inr ⟨f, hfr, hcase⟩

theorem mem_newArcs_hasKey (bc : BC) (xi xj : Var) (p : Var × Var)
    (h : p ∈ newArcs bc xi xj) : hasKeyB bc p.1 p.2 = true := by
  rw [mem_newArcs_iff] at h
  obtain ⟨e, he, hcase⟩ := h
  rcases hcase with ⟨h1, _, rfl⟩ | ⟨_, h1, _, rfl⟩
  · have hs : (lookupA bc (e.1.1, xi)).isSome :=
      (lookupA_isSome_iff bc (e.1.1, xi)).mpr
        (List.mem_map.mpr ⟨e, he, by rw [← h1]⟩)
    simp only [hasKeyB]
    rw [Bool.or_eq_true]
    exact Or.inl hs
  · have hs : (lookupA bc (xi, e.1.2)).isSome :=
      (lookupA_isSome_iff bc (xi, e.1.2)).mpr
        (List.mem_map.mpr ⟨e, he, by rw [← h1]⟩)
    simp only [hasKeyB]
    rw [Bool.or_eq_true]
    exact Or.inr hs

theorem key_mem_newArcs (bc : BC) (xi xj a : Var) (s : List (Val × Val))
    (he : ((a, xi), s) ∈ bc) (hne : a ≠ xj) : (a, xi) ∈ newArcs bc xi xj := by
  rw [mem_newArcs_iff]
  exact ⟨((a, xi), s), he, Or.inl ⟨rfl, hne, rfl⟩⟩

theorem hasKeyB_irrefl (bc : BC) (hg : BCGood bc) (xi xj : Var)
    (h : hasKeyB bc xi xj = true) : xi ≠ xj := by
  simp only [hasKeyB, Bool.or_eq_true] at h
  rcases h with h | h
  · obtain ⟨s, hs⟩ := Option.isSome_iff_exists.mp h
    exact hg.irrefl _ (lookupA_mem _ _ _ hs)
  · obtain ⟨s, hs⟩ := Option.isSome_iff_exists.mp h
    exact Ne.symm (hg.irrefl _ (lookupA_mem _ _ _ hs))

theorem ac3LoopF_true_keysConsistent :
    ∀ (fuel : Nat) (bc : BC) (d : Domains) (q : List (Var × Var)) (df : Domains),
      BCGood bc →
      (∀ p ∈ q, hasKeyB bc p.1 p.2 = true) →
      (∀ k ∈ keysList bc, arcConsistent bc d k ∨ k ∈ q) →
      ac3LoopF fuel bc d q = some (true, df) →
      keysConsistent bc df := by
  intro fuel
  induction fuel with
  | zero =>
    intro bc d q df _ _ _ h
    simp [ac3LoopF] at h
  | succ fuel ih =>
    intro bc d q df hg hq hinv h
    match q with
    | [] =>
      simp only [ac3LoopF, Option.some_inj] at h
      injection h with h1 h2
      subst h2
      intro k hk
      rcases hinv k hk with hc | hc
      · exact hc
      · cases hc
    | (xi, xj) :: rest =>
      have hkey : hasKeyB bc xi xj = true := hq (xi, xj) (List.mem_cons_self _ _)
      have hne : xi ≠ xj := hasKeyB_irrefl bc hg xi xj hkey
      simp only [ac3LoopF] at h
      cases hrev : revise bc d xi xj with
      | mk b d1 =>
        rw [hrev] at h
        cases b with
        | false =>
          simp only at h
          have hd : d1 = d := by
            have := revise_snd_of_fst_false bc d xi xj (by rw [hrev])
            rw [hrev] at this
            exact this
          subst hd
          refine ih bc d1 rest df hg (fun p hp => hq p (List.mem_cons_of_mem _ hp)) ?_ h
          intro k hk
          rcases hinv k hk with hc | hc
          · exact Or.inl hc
          · rcases List.mem_cons.mp hc with rfl | hcr
            · exact Or.inl (arcConsistent_of_revise_false bc d1 xi xj (by rw [hrev]))
            · exact Or.inr hcr
        | true =>
          simp only at h
          by_cases hemp : (lookupD d1 xi).isEmpty
          · rw [if_pos hemp] at h
            simp at h
          · rw [if_neg hemp] at h
            have hd1 : d1 = (revise bc d xi xj).2 := by rw [hrev]
            refine ih bc d1 (rest ++ newArcs bc xi xj) df hg ?_ ?_ h
            · intro p hp
              rcases List.mem_append.mp hp with hp | hp
              · exact hq p (List.mem_cons_of_mem _ hp)
              · exact mem_newArcs_hasKey bc xi xj p hp
            · intro k hk
              obtain ⟨k1, k2⟩ := k
              rcases hinv (k1, k2) hk with hc | hc
              · by_cases hk2 : k2 = xi
                · subst hk2
                  by_cases hk1 : k1 = xj
                  · subst hk1
                    left
                    have hexc := arcConsistent_revise_excluded bc hg d k2 k1 hne hc
                    rw [← hd1] at hexc
                    exact hexc
                  · obtain ⟨e, hebc, hek⟩ := List.mem_map.mp hk
                    have he2 : e = ((k1, k2), e.2) := by rw [← hek]
                    right
                    refine List.mem_append.mpr (Or.inr ?_)
                    exact key_mem_newArcs bc k2 xj k1 e.2 (he2 ▸ hebc) hk1
                · left
                  have := arcConsistent_revise_of_snd_ne bc d xi xj (k1, k2) hk2 hc
                  rw [← hd1] at this
                  exact this
              · rcases List.mem_cons.mp hc with heq | hcr
                · injection heq with he1 he2
                  subst he1
                  subst he2
                  left
                  have := arcConsistent_revise_self bc d k1 k2 hne
                  rw [← hd1] at this
                  exact this
                · exact Or.inr (List.mem_append.mpr (Or.inl hcr))

theorem ac_3_true_keysConsistent (st : CSPState) (hg : BCGood st.bc) (df : Domains)
    (h : ac_3 st = (true, df)) : keysConsistent st.bc df := by
  have hloop := ac_3_eq_loop st
  rw [h] at hloop
  refine ac3LoopF_true_keysConsistent _ st.bc st.domains _ df hg ?_ ?_ hloop
  · intro p hp
    have hs : (lookupA st.bc p).isSome :=
      (lookupA_isSome_iff _ _).mpr (by simpa [keysList] using hp)
    simp only [hasKeyB, Bool.or_eq_true]
    exact Or.inl hs
  · intro k hk
    exact Or.inr hk

theorem ac3LoopF_of_consistent :
    ∀ (fuel : Nat) (bc : BC) (d : Domains) (q : List (Var × Var)),
      (∀ p ∈ q, arcConsistent bc d p) → q.length < fuel →
      ac3LoopF fuel bc d q = some (true, d) := by
  intro fuel
  induction fuel with
  | zero => intro bc d q _ hlen; omega
  | succ fuel ih =>
    intro bc d q hq hlen
    match q with
    | [] => simp [ac3LoopF]
    | (xi, xj) :: rest =>
      have hrev : revise bc d xi xj = (false, d) :=
        revise_eq_of_arcConsistent bc d xi xj (hq (xi, xj) (List.mem_cons_self _ _))
      simp only [ac3LoopF, hrev]
      refine ih bc d rest (fun p hp => hq p (List.mem_cons_of_mem _ hp)) ?_
      simp only [List.length_cons] at hlen
      omega

/-- A second `ac_3` run started from key-arc-consistent domains reports
success and changes nothing. -/
theorem ac_3_of_keysConsistent (st : CSPState) (h : keysConsistent st.bc st.domains) :
    ac_3 st = (true, st.domains) := by
  have hloop := ac_3_eq_loop st
  rw [ac3LoopF_of_consistent (ac3Fuel st.bc st.domains (st.bc.map fun e => e.1))
    st.bc st.domains (st.bc.map fun e => e.1) ?_ ?_] at hloop
  · injection hloop with hloop
    exact hloop.symm
  · intro p hp
    exact h p (by simpa [keysList] using hp)
  · simp only [ac3Fuel, List.length_map]
    omega

theorem ac3LoopF_false_of_witness :
    ∀ (fuel : Nat) (bc : BC) (d : Domains) (q : List (Var × Var)),
      (∃ p ∈ q, lookupD d p.2 = [] ∧ lookupD d p.1 ≠ []) →
      ∀ r, ac3LoopF fuel bc d q = some r → r.1 = false := by
  intro fuel
  induction fuel with
  | zero =>
    intro bc d q _ r h
    simp [ac3LoopF] at h
  | succ fuel ih =>
    intro bc d q hw r h
    match q with
    | [] =>
      obtain ⟨p, hp, _⟩ := hw
      cases hp
    | (a, b) :: rest =>
      obtain ⟨p, hp, hpe, hpn⟩ := hw
      simp only [ac3LoopF] at h
      rcases List.mem_cons.mp hp with heq | hpr
      · -- the dequeued arc itself has an empty right domain and nonempty left domain
        have hbe : lookupD d b = [] := by rw [heq] at hpe; exact hpe
        have han : lookupD d a ≠ [] := by rw [heq] at hpn; exact hpn
        have hsup : ∀ vi ∈ lookupD d a, hasSupport bc d a b vi = false := by
          intro vi _
          simp [hasSupport, hbe]
        have hfst : (revise bc d a b).1 = true := by
          rw [revise_fst]
          simp only [Bool.not_eq_true']
          rw [List.isEmpty_eq_false_iff_exists_mem]
          obtain ⟨vi, hvi⟩ := List.exists_mem_of_ne_nil _ han
          exact ⟨vi, List.mem_filter.mpr ⟨hvi, by simp [hsup vi hvi]⟩⟩
        have hsnd : lookupD (revise bc d a b).2 a = [] := by
          rw [lookupD_revise_self]
          rw [List.filter_eq_nil_iff]
          intro vi hvi
          simp [hsup vi hvi]
        cases hrev : revise bc d a b with
        | mk bb d1 =>
          rw [hrev] at h
          have hbb : bb = true := by rw [hrev] at hfst; exact hfst
          subst hbb
          have hd1 : lookupD d1 a = [] := by rw [hrev] at hsnd; exact hsnd
          simp only at h
          rw [if_pos (by simp [hd1])] at h
          injection h with h
          rw [← h]
      · -- the witness arc sits in the tail
        cases hrev : revise bc d a b with
        | mk bb d1 =>
          rw [hrev] at h
          cases bb with
          | false =>
            simp only at h
            have hd : d1 = d := by
              have := revise_snd_of_fst_false bc d a b (by rw [hrev])
              rw [hrev] at this
              exact this
            subst hd
            exact ih bc d1 rest ⟨p, hpr, hpe, hpn⟩ r h
          | true =>
            simp only at h
            by_cases hemp : (lookupD d1 a).isEmpty
            · rw [if_pos hemp] at h
              injection h with h
              rw [← h]
            · rw [if_neg hemp] at h
              have hd1 : d1 = (revise bc d a b).2 := by rw [hrev]
              have hp2 : p.2 ≠ a := by
                intro hc
                have : lookupD d a ≠ [] := by
                  intro hnil
                  have : (revise bc d a b).1 = false := by
                    rw [revise_fst]
                    simp [hnil]
                  rw [hrev] at this
                  cases this
                exact this (hc ▸ hpe)
              have hpe2 : lookupD d1 p.2 = [] := by
                rw [hd1, lookupD_revise_ne bc d a b p.2 hp2]
                exact hpe
              have hpn2 : lookupD d1 p.1 ≠ [] := by
                by_cases hp1 : p.1 = a
                · rw [hp1]
                  intro hnil
                  rw [hnil] at hemp
                  simp at hemp
                · rw [hd1, lookupD_revise_ne bc d a b p.1 hp1]
                  exact hpn
              exact ih bc d1 (rest ++ newArcs bc a b)
                ⟨p, List.mem_append.mpr (Or.inl hpr), hpe2, hpn2⟩ r h

theorem ac3LoopCheckedF_eq :
    ∀ (fuel : Nat) (bc : BC) (d : Domains) (q : List (Var × Var)),
      (∀ p ∈ q, hasKeyB bc p.1 p.2 = true) →
      ac3LoopCheckedF fuel bc d q = ac3LoopF fuel bc d q := by
  intro fuel
  induction fuel with
  | zero => intro bc d q _; rfl
  | succ fuel ih =>
    intro bc d q hq
    match q with
    | [] => rfl
    | (xi, xj) :: rest =>
      have hkey : hasKeyB bc xi xj = true := hq (xi, xj) (List.mem_cons_self _ _)
      simp only [ac3LoopCheckedF, ac3LoopF]
      rw [if_pos hkey]
      cases hrev : revise bc d xi xj with
      | mk b d1 =>
        cases b with
        | false => exact ih bc d1 rest (fun p hp => hq p (List.mem_cons_of_mem _ hp))
        | true =>
          show (if (lookupD d1 xi).isEmpty then some (false, d1)
              else ac3LoopCheckedF fuel bc d1 (rest ++ newArcs bc xi xj)) =
            (if (lookupD d1 xi).isEmpty then some (false, d1)
              else ac3LoopF fuel bc d1 (rest ++ newArcs bc xi xj))
          by_cases hemp : (lookupD d1 xi).isEmpty
          · rw [if_pos hemp, if_pos hemp]
          · rw [if_neg hemp, if_neg hemp]
            refine ih bc d1 (rest ++ newArcs bc xi xj) ?_
            intro p hp
            rcases List.mem_append.mp hp with hp | hp
            · exact hq p (List.mem_cons_of_mem _ hp)
            · exact mem_newArcs_hasKey bc xi xj p hp

theorem lookupA_append_of_some {κ ρ : Type} [DecidableEq κ] (l1 l2 : List (κ × ρ)) (k : κ)
    (r : ρ) (h : lookupA l1 k = some r) : lookupA (l1 ++ l2) k = some r := by
  induction l1 with
  | nil => cases h
  | cons e rest ih =>
    by_cases he : e.1 = k
    · simp only [lookupA, he, if_true] at h ⊢
      exact h
    · simp only [lookupA, he, if_false] at h ⊢
      exact ih h

theorem lookupA_append_of_none {κ ρ : Type} [DecidableEq κ] (l1 l2 : List (κ × ρ)) (k : κ)
    (h : lookupA l1 k = none) : lookupA (l1 ++ l2) k = lookupA l2 k := by
  induction l1 with
  | nil => rfl
  | cons e rest ih =>
    by_cases he : e.1 = k
    · simp [lookupA, he] at h
    · simp only [lookupA, he, if_false] at h ⊢
      exact ih h

theorem lookupA_append_single_self (a : Assignment) (var : Var) (value : Val)
    (hu : lookupA a var = none) : lookupA (a ++ [(var, value)]) var = some value := by
  rw [lookupA_append_of_none _ _ _ hu]
  simp [lookupA]

theorem lookupA_append_single_elim (a : Assignment) (var v : Var) (value w : Val)
    (h : lookupA (a ++ [(var, value)]) v = some w) :
    lookupA a v = some w ∨ (lookupA a v = none ∧ v = var ∧ w = value) := by
  cases ha : lookupA a v with
  | some w2 =>
    rw [lookupA_append_of_some _ _ _ _ ha] at h
    exact Or.inl h
  | none =>
    rw [lookupA_append_of_none _ _ _ ha] at h
    simp only [lookupA] at h
    by_cases hv : var = v
    · rw [if_pos hv] at h
      injection h with h
      exact Or.inr ⟨rfl, hv.symm, h.symm⟩
    · rw [if_neg hv] at h
      cases h

theorem removeKey_of_not_key (a : Assignment) (v : Var) (h : lookupA a v = none) :
    removeKey a v = a := by
  show a.filter (fun e => !(decide (e.1 = v))) = a
  rw [List.filter_eq_self]
  intro e he
  simp only [Bool.not_eq_true', decide_eq_false_iff_not]
  exact (lookupA_eq_none_iff a v).mp h e he

theorem removeKey_append_single (a : Assignment) (var : Var) (value : Val)
    (hu : lookupA a var = none) : removeKey (a ++ [(var, value)]) var = a := by
  have h1 : a.filter (fun e => !(decide (e.1 = var))) = a := removeKey_of_not_key a var hu
  show (a ++ [(var, value)]).filter (fun e => !(decide (e.1 = var))) = a
  rw [List.filter_append, h1]
  simp

theorem tryValuesGo_state
    (bt : Domains → Assignment → Option (Option Assignment × Domains × Assignment))
    (bc : BC) (var : Var)
    (hbt : ∀ d a r d1 a1, bt d a = some (r, d1, a1) →
      d1 = d ∧ (r = none → a1 = a) ∧ (∀ x, r = some x → a1 = x)) :
    ∀ (values : List Val) (d : Domains) (a : Assignment), lookupA a var = none →
      ∀ r d1 a1, tryValuesGo bt bc var values d a = some (r, d1, a1) →
      d1 = d ∧ (r = none → a1 = a) ∧ (∀ x, r = some x → a1 = x) := by
  intro values
  induction values with
  | nil =>
    intro d a hu r d1 a1 h
    simp only [tryValuesGo, Option.some_inj] at h
    injection h with h1 h2
    injection h2 with h2 h3
    subst h1
    subst h2
    subst h3
    refine ⟨rfl, fun _ => rfl, fun x hx => ?_⟩
    cases hx
  | cons value rest ih =>
    intro d a hu r d1 a1 h
    simp only [tryValuesGo, make_inference] at h
    by_cases hcons : isConsistentA bc a var value
    · rw [if_pos hcons] at h
      cases hb : bt d (a ++ [(var, value)]) with
      | none => rw [hb] at h; cases h
      | some res =>
        obtain ⟨rb, d2, a2⟩ := res
        rw [hb] at h
        obtain ⟨hd2, ha2n, ha2s⟩ := hbt d (a ++ [(var, value)]) rb d2 a2 hb
        cases rb with
        | some r0 =>
          simp only [Option.some_inj] at h
          injection h with h1 h2
          injection h2 with h2 h3
          subst h1
          subst h2
          subst h3
          refine ⟨hd2, fun hc => ?_, fun x hx => ?_⟩
          · cases hc
          · injection hx with hx
            rw [← hx]
            exact ha2s r0 rfl
        | none =>
          simp only at h
          have ha2 : a2 = a ++ [(var, value)] := ha2n rfl
          have hrest : restore_inferences d2 [] = d := by
            simp [restore_inferences, hd2]
          have hrem : removeKey a2 var = a := by
            rw [ha2]
            exact removeKey_append_single a var value hu
          rw [hrest, hrem] at h
          exact ih d a hu r d1 a1 h
    · rw [if_neg hcons] at h
      exact ih d a hu r d1 a1 h

theorem filter_head_unassigned (vars : List Var) (a : Assignment) (var : Var)
    (tail : List Var) (hfl : vars.filter (fun v => !(lookupA a v).isSome) = var :: tail) :
    lookupA a var = none ∧ var ∈ vars := by
  have hmem : var ∈ vars.filter (fun v => !(lookupA a v).isSome) := by
    rw [hfl]
    exact List.mem_cons_self _ _
  obtain ⟨hv, hp⟩ := List.mem_filter.mp hmem
  refine ⟨?_, hv⟩
  cases hA : lookupA a var with
  | none => rfl
  | some w => rw [hA] at hp; simp at hp

theorem backtrackF_state :
    ∀ (fuel : Nat) (vars : List Var) (bc : BC) (d : Domains) (a : Assignment)
      (r : Option Assignment) (d1 : Domains) (a1 : Assignment),
      backtrackF fuel vars bc d a = some (r, d1, a1) →
      d1 = d ∧ (r = none → a1 = a) ∧ (∀ x, r = some x → a1 = x) := by
  intro fuel
  induction fuel with
  | zero =>
    intro vars bc d a r d1 a1 h
    cases h
  | succ fuel ih =>
    intro vars bc d a r d1 a1 h
    simp only [backtrackF] at h
    by_cases hlen : a.length = vars.length
    · rw [if_pos hlen] at h
      simp only [Option.some_inj] at h
      injection h with h1 h2
      injection h2 with h2 h3
      subst h1
      subst h2
      subst h3
      exact ⟨rfl, ⟨fun hc => Option.noConfusion hc, fun x hx => Option.some_inj.mp hx⟩⟩
    · rw [if_neg hlen] at h
      cases hfl : vars.filter (fun v => !(lookupA a v).isSome) with
      | nil => rw [hfl] at h; cases h
      | cons var tail =>
        rw [hfl] at h
        obtain ⟨hu, _⟩ := filter_head_unassigned vars a var tail hfl
        exact tryValuesGo_state (backtrackF fuel vars bc) bc var
          (fun d' a' r' d1' a1' h' => ih vars bc d' a' r' d1' a1' h')
          (lookupD d var) d a hu r d1 a1 h

theorem length_filter_le_of_imp {α : Type} (l : List α) (p q : α → Bool)
    (himp : ∀ x ∈ l, q x = true → p x = true) :
    (l.filter q).length ≤ (l.filter p).length := by
  induction l with
  | nil => simp
  | cons y rest ih =>
    have ih2 := ih (fun x hx => himp x (List.mem_cons_of_mem _ hx))
    by_cases hq : q y = true
    · have hp : p y = true := himp y (List.mem_cons_self _ _) hq
      simp only [List.filter_cons, hq, hp, if_true, List.length_cons]
      omega
    · simp only [Bool.not_eq_true] at hq
      simp only [List.filter_cons, hq, Bool.false_eq_true, if_false]
      by_cases hp : p y = true
      · simp only [hp, if_true, List.length_cons]
        omega
      · simp only [Bool.not_eq_true] at hp
        simp only [hp, Bool.false_eq_true, if_false]
        exact ih2

theorem length_filter_lt_of_imp {α : Type} (l : List α) (p q : α → Bool)
    (himp : ∀ x ∈ l, q x = true → p x = true) (x : α) (hx : x ∈ l)
    (hpx : p x = true) (hqx : q x = false) :
    (l.filter q).length < (l.filter p).length := by
  induction l with
  | nil => cases hx
  | cons y rest ih =>
    have hle := length_filter_le_of_imp rest p q (fun z hz => himp z (List.mem_cons_of_mem _ hz))
    rcases List.mem_cons.mp hx with rfl | hxr
    · simp only [List.filter_cons, hqx, Bool.false_eq_true, if_false, hpx, if_true,
        List.length_cons]
      omega
    · have ih2 := ih (fun z hz => himp z (List.mem_cons_of_mem _ hz)) hxr
      by_cases hq : q y = true
      · have hp : p y = true := himp y (List.mem_cons_self _ _) hq
        simp only [List.filter_cons, hq, hp, if_true, List.length_cons]
        omega
      · simp only [Bool.not_eq_true] at hq
        simp only [List.filter_cons, hq, Bool.false_eq_true, if_false]
        by_cases hp : p y = true
        · simp only [hp, if_true, List.length_cons]
          omega
        · simp only [Bool.not_eq_true] at hp
          simp only [hp, Bool.false_eq_true, if_false]
          exact ih2

theorem ucount_append_lt (vars : List Var) (a : Assignment) (var : Var) (value : Val)
    (hvar : var ∈ vars) (hu : lookupA a var = none) :
    (vars.filter (fun v => !(lookupA (a ++ [(var, value)]) v).isSome)).length <
      (vars.filter (fun v => !(lookupA a v).isSome)).length := by
  refine length_filter_lt_of_imp vars _ _ ?_ var hvar ?_ ?_
  · intro v _ hq
    simp only [Bool.not_eq_true'] at hq ⊢
    cases ha : lookupA a v with
    | none => simp
    | some w =>
      rw [lookupA_append_of_some _ _ _ _ ha] at hq
      simp at hq
  · simp [hu]
  · simp [lookupA_append_single_self a var value hu]

theorem keys_complete_of_filter_nil (vars : List Var) (a : Assignment)
    (hnd : vars.Nodup) (hka : ∀ e ∈ a, e.1 ∈ vars) (hnda : (a.map fun e => e.1).Nodup)
    (hfl : vars.filter (fun v => !(lookupA a v).isSome) = []) :
    a.length = vars.length := by
  have hsub1 : (a.map fun e => e.1) ⊆ vars := by
    intro x hx
    obtain ⟨e, he, rfl⟩ := List.mem_map.mp hx
    exact hka e he
  have hsub2 : vars ⊆ a.map fun e => e.1 := by
    intro v hv
    have := List.filter_eq_nil_iff.mp hfl v hv
    simp only [Bool.not_eq_true', Bool.not_eq_false] at this
    exact (lookupA_isSome_iff a v).mp (by simpa using this)
  have h1 := (hnda.subperm hsub1).length_le
  have h2 := (hnd.subperm hsub2).length_le
  have h3 : (a.map fun e => e.1).length = a.length := List.length_map _ _
  omega

theorem tryValuesGo_isSome
    (bt : Domains → Assignment → Option (Option Assignment × Domains × Assignment))
    (bc : BC) (var : Var) (a : Assignment) (hu : lookupA a var = none)
    (hbtState : ∀ d a' r d1 a1, bt d a' = some (r, d1, a1) →
      d1 = d ∧ (r = none → a1 = a') ∧ (∀ x, r = some x → a1 = x))
    (hbtSome : ∀ (value : Val) (d : Domains), (bt d (a ++ [(var, value)])).isSome) :
    ∀ (values : List Val) (d : Domains), (tryValuesGo bt bc var values d a).isSome := by
  intro values
  induction values with
  | nil => intro d; simp [tryValuesGo]
  | cons value rest ih =>
    intro d
    simp only [tryValuesGo, make_inference]
    by_cases hcons : isConsistentA bc a var value
    · rw [if_pos hcons]
      cases hb : bt d (a ++ [(var, value)]) with
      | none =>
        have := hbtSome value d
        rw [hb] at this
        cases this
      | some res =>
        obtain ⟨rb, d2, a2⟩ := res
        obtain ⟨hd2, ha2n, _⟩ := hbtState d (a ++ [(var, value)]) rb d2 a2 hb
        cases rb with
        | some r0 => simp
        | none =>
          simp only
          have ha2 : a2 = a ++ [(var, value)] := ha2n rfl
          have hrest : restore_inferences d2 [] = d := by simp [restore_inferences, hd2]
          have hrem : removeKey a2 var = a := by
            rw [ha2]
            exact removeKey_append_single a var value hu
          rw [hrest, hrem]
          exact ih d
    · rw [if_neg hcons]
      exact ih d

theorem backtrackF_isSome :
    ∀ (fuel : Nat) (vars : List Var) (bc : BC) (d : Domains) (a : Assignment),
      vars.Nodup → (∀ e ∈ a, e.1 ∈ vars) → (a.map fun e => e.1).Nodup →
      (vars.filter (fun v => !(lookupA a v).isSome)).length < fuel →
      (backtrackF fuel vars bc d a).isSome := by
  intro fuel
  induction fuel with
  | zero => intro vars bc d a _ _ _ h; omega
  | succ fuel ih =>
    intro vars bc d a hnd hka hnda hfuel
    simp only [backtrackF]
    by_cases hlen : a.length = vars.length
    · rw [if_pos hlen]
      simp
    · rw [if_neg hlen]
      cases hfl : vars.filter (fun v => !(lookupA a v).isSome) with
      | nil =>
        exact absurd (keys_complete_of_filter_nil vars a hnd hka hnda hfl) hlen
      | cons var tail =>
        obtain ⟨hu, hvar⟩ := filter_head_unassigned vars a var tail hfl
        refine tryValuesGo_isSome (backtrackF fuel vars bc) bc var a hu
          (fun d' a' r d1 a1 h => backtrackF_state fuel vars bc d' a' r d1 a1 h) ?_
          (lookupD d var) d
        intro value d'
        refine ih vars bc d' (a ++ [(var, value)]) hnd ?_ ?_ ?_
        · intro e he
          rcases List.mem_append.mp he with he | he
          · exact hka e he
          · simp only [List.mem_singleton] at he
            rw [he]
            exact hvar
        · rw [List.map_append]
          simp only [List.map_cons, List.map_nil]
          rw [List.nodup_append]
          refine ⟨hnda, List.nodup_singleton _, ?_⟩
          intro x hx hx2
          simp only [List.mem_singleton] at hx2
          obtain ⟨e, he, hex⟩ := List.mem_map.mp hx
          exact (lookupA_eq_none_iff a var).mp hu e he (hex.trans hx2)
        · have hdec := ucount_append_lt vars a var value hvar hu
          rw [hfl] at hfuel
          simp only [List.length_cons] at hfuel
          have : (vars.filter (fun v => !(lookupA a v).isSome)).length = tail.length + 1 := by
            rw [hfl]
            simp
          omega

/-- Every fully assigned constrained pair of an assignment takes its values
from the corresponding compatible-pairs set. -/
def partialOk (bc : BC) (a : Assignment) : Prop :=
  ∀ e ∈ bc, ∀ vx vy : Val,
    lookupA a e.1.1 = some vx → lookupA a e.1.2 = some vy → (vx, vy) ∈ e.2

theorem lookupA_entry (bc : BC) (hg : BCGood bc)
    (e : (Var × Var) × List (Val × Val)) (he : e ∈ bc) : lookupA bc e.1 = some e.2 := by
  refine lookupA_of_mem_nodup bc e.1 e.2 hg.nodupKeys ?_
  have : e = (e.1, e.2) := rfl
  rw [← this]
  exact he

theorem partialOk_extend (bc : BC) (a : Assignment) (var : Var) (value : Val)
    (hg : BCGood bc) (hu : lookupA a var = none) (hpa : partialOk bc a)
    (hcons : isConsistentA bc a var value = true) :
    partialOk bc (a ++ [(var, value)]) := by
  intro e he vx vy hx hy
  rcases lookupA_append_single_elim a var e.1.1 value vx hx with hxa | ⟨hxn, hx1, hxv⟩
  · rcases lookupA_append_single_elim a var e.1.2 value vy hy with hya | ⟨hyn, hy1, hyv⟩
    · exact hpa e he vx vy hxa hya
    · -- e.1.2 = var : the newly assigned variable is the second endpoint
      subst hyv
      have hmem : (e.1.1, vx) ∈ a := lookupA_mem a e.1.1 vx hxa
      have hpair : pairOk bc var vy e.1.1 vx = true :=
        List.all_eq_true.mp hcons (e.1.1, vx) hmem
      rw [pairOk] at hpair
      cases hrev : lookupA bc (var, e.1.1) with
      | some s2 =>
        rw [hrev] at hpair
        simp only [decide_eq_true_eq] at hpair
        have hrev2 : lookupA bc (e.1.2, e.1.1) = some s2 := by rw [hy1]; exact hrev
        have hins : (vy, vx) ∈ e.2 := (hg.coh e he s2 hrev2 (vy, vx)).mp hpair
        exact hg.symm e he vy vx hins
      | none =>
        rw [hrev] at hpair
        have hkey : lookupA bc (e.1.1, var) = some e.2 := by
          have h1 : lookupA bc e.1 = some e.2 := lookupA_entry bc hg e he
          have h2 : e.1 = (e.1.1, var) := by rw [← hy1]
          rw [← h2]
          exact h1
        rw [hkey] at hpair
        simp only [decide_eq_true_eq] at hpair
        exact hpair
  · -- e.1.1 = var : the newly assigned variable is the first endpoint
    subst hxv
    rcases lookupA_append_single_elim a var e.1.2 vx vy hy with hya | ⟨hyn, hy1, hyv⟩
    · have hmem : (e.1.2, vy) ∈ a := lookupA_mem a e.1.2 vy hya
      have hpair : pairOk bc var vx e.1.2 vy = true :=
        List.all_eq_true.mp hcons (e.1.2, vy) hmem
      rw [pairOk] at hpair
      have hkey : lookupA bc (var, e.1.2) = some e.2 := by
        have h1 : lookupA bc e.1 = some e.2 := lookupA_entry bc hg e he
        have h2 : e.1 = (var, e.1.2) := by rw [← hx1]
        rw [← h2]
        exact h1
      rw [hkey] at hpair
      simp only [decide_eq_true_eq] at hpair
      exact hpair
    · -- both endpoints are the new variable: impossible, keys are irreflexive
      exfalso
      exact hg.irrefl e he (hx1.trans hy1.symm)

theorem append_single_invariants (vars : List Var) (a : Assignment) (var : Var) (value : Val)
    (hu : lookupA a var = none) (hvar : var ∈ vars)
    (hka : ∀ e ∈ a, e.1 ∈ vars) (hnda : (a.map fun e => e.1).Nodup) :
    (∀ e ∈ a ++ [(var, value)], e.1 ∈ vars) ∧
      ((a ++ [(var, value)]).map fun e => e.1).Nodup := by
  constructor
  · intro e he
    rcases List.mem_append.mp he with he | he
    · exact hka e he
    · simp only [List.mem_singleton] at he
      rw [he]
      exact hvar
  · rw [List.map_append]
    simp only [List.map_cons, List.map_nil]
    rw [List.nodup_append]
    refine ⟨hnda, List.nodup_singleton _, ?_⟩
    intro x hx hx2
    simp only [List.mem_singleton] at hx2
    obtain ⟨e, he, hex⟩ := List.mem_map.mp hx
    exact (lookupA_eq_none_iff a var).mp hu e he (hex.trans hx2)

theorem tryValuesGo_sound
    (bt : Domains → Assignment → Option (Option Assignment × Domains × Assignment))
    (vars : List Var) (bc : BC) (var : Var) (a : Assignment) (d : Domains)
    (hg : BCGood bc) (hu : lookupA a var = none) (hvar : var ∈ vars)
    (hpa : partialOk bc a) (hka : ∀ e ∈ a, e.1 ∈ vars)
    (hnda : (a.map fun e => e.1).Nodup) (hda : ∀ e ∈ a, e.2 ∈ lookupD d e.1)
    (hbtState : ∀ d' a' r d1 a1, bt d' a' = some (r, d1, a1) →
      d1 = d' ∧ (r = none → a1 = a') ∧ (∀ x, r = some x → a1 = x))
    (hbtSound : ∀ a' r d1 a1, partialOk bc a' → (∀ e ∈ a', e.1 ∈ vars) →
      (a'.map fun e => e.1).Nodup → (∀ e ∈ a', e.2 ∈ lookupD d e.1) →
      bt d a' = some (some r, d1, a1) →
      partialOk bc r ∧ (∀ e ∈ r, e.1 ∈ vars) ∧ (r.map fun e => e.1).Nodup ∧
        r.length = vars.length ∧ (∀ e ∈ r, e.2 ∈ lookupD d e.1)) :
    ∀ (values : List Val), (∀ v ∈ values, v ∈ lookupD d var) →
      ∀ r d1 a1, tryValuesGo bt bc var values d a = some (some r, d1, a1) →
      partialOk bc r ∧ (∀ e ∈ r, e.1 ∈ vars) ∧ (r.map fun e => e.1).Nodup ∧
        r.length = vars.length ∧ (∀ e ∈ r, e.2 ∈ lookupD d e.1) := by
  intro values
  induction values with
  | nil =>
    intro _ r d1 a1 h
    simp only [tryValuesGo, Option.some_inj] at h
    injection h with h1 h2
    cases h1
  | cons value rest ih =>
    intro hvals r d1 a1 h
    simp only [tryValuesGo, make_inference] at h
    by_cases hcons : isConsistentA bc a var value
    · rw [if_pos hcons] at h
      cases hb : bt d (a ++ [(var, value)]) with
      | none => rw [hb] at h; cases h
      | some res =>
        obtain ⟨rb, d2, a2⟩ := res
        rw [hb] at h
        obtain ⟨hd2, ha2n, _⟩ := hbtState d (a ++ [(var, value)]) rb d2 a2 hb
        cases rb with
        | some r0 =>
          simp only [Option.some_inj] at h
          injection h with h1 h2
          injection h2 with h2 h3
          injection h1 with h1
          subst h1
          subst h2
          subst h3
          have hpa2 : partialOk bc (a ++ [(var, value)]) :=
            partialOk_extend bc a var value hg hu hpa hcons
          obtain ⟨hka2, hnda2⟩ := append_single_invariants vars a var value hu hvar hka hnda
          have hda2 : ∀ e ∈ a ++ [(var, value)], e.2 ∈ lookupD d e.1 := by
            intro e he
            rcases List.mem_append.mp he with he | he
            · exact hda e he
            · simp only [List.mem_singleton] at he
              rw [he]
              exact hvals value (List.mem_cons_self _ _)
          exact hbtSound (a ++ [(var, value)]) r0 d2 a2 hpa2 hka2 hnda2 hda2 hb
        | none =>
          simp only at h
          have ha2 : a2 = a ++ [(var, value)] := ha2n rfl
          have hrest : restore_inferences d2 [] = d := by simp [restore_inferences, hd2]
          have hrem : removeKey a2 var = a := by
            rw [ha2]
            exact removeKey_append_single a var value hu
          rw [hrest, hrem] at h
          exact ih (fun v hv => hvals v (List.mem_cons_of_mem _ hv)) r d1 a1 h
    · rw [if_neg hcons] at h
      exact ih (fun v hv => hvals v (List.mem_cons_of_mem _ hv)) r d1 a1 h

theorem backtrackF_sound :
    ∀ (fuel : Nat) (vars : List Var) (bc : BC) (d : Domains) (a : Assignment)
      (r : Assignment) (d1 : Domains) (a1 : Assignment),
      BCGood bc →
      partialOk bc a → (∀ e ∈ a, e.1 ∈ vars) → (a.map fun e => e.1).Nodup →
      (∀ e ∈ a, e.2 ∈ lookupD d e.1) →
      backtrackF fuel vars bc d a = some (some r, d1, a1) →
      partialOk bc r ∧ (∀ e ∈ r, e.1 ∈ vars) ∧ (r.map fun e => e.1).Nodup ∧
        r.length = vars.length ∧ (∀ e ∈ r, e.2 ∈ lookupD d e.1) := by
  intro fuel
  induction fuel with
  | zero =>
    intro vars bc d a r d1 a1 _ _ _ _ _ h
    cases h
  | succ fuel ih =>
    intro vars bc d a r d1 a1 hg hpa hka hnda hda h
    simp only [backtrackF] at h
    by_cases hlen : a.length = vars.length
    · rw [if_pos hlen] at h
      simp only [Option.some_inj] at h
      injection h with h1 h2
      injection h2 with h2 h3
      injection h1 with h1
      subst h1
      exact ⟨hpa, hka, hnda, hlen, hda⟩
    · rw [if_neg hlen] at h
      cases hfl : vars.filter (fun v => !(lookupA a v).isSome) with
      | nil => rw [hfl] at h; cases h
      | cons var tail =>
        rw [hfl] at h
        obtain ⟨hu, hvar⟩ := filter_head_unassigned vars a var tail hfl
        exact tryValuesGo_sound (backtrackF fuel vars bc) vars bc var a d hg hu hvar
          hpa hka hnda hda
          (fun d' a' r' d1' a1' h' => backtrackF_state fuel vars bc d' a' r' d1' a1' h')
          (fun a' r' d1' a1' hpa' hka' hnda' hda' h' =>
            ih vars bc d a' r' d1' a1' hg hpa' hka' hnda' hda' h')
          (lookupD d var) (fun v hv => hv) r d1 a1 h

theorem assigned_of_total (vars : List Var) (r : Assignment) (hnd : vars.Nodup)
    (hka : ∀ e ∈ r, e.1 ∈ vars) (hnda : (r.map fun e => e.1).Nodup)
    (hlen : r.length = vars.length) :
    ∀ v ∈ vars, ∃ w, lookupA r v = some w := by
  have hsub1 : (r.map fun e => e.1) ⊆ vars := by
    intro x hx
    obtain ⟨e, he, rfl⟩ := List.mem_map.mp hx
    exact hka e he
  have hsp := hnda.subperm hsub1
  have hperm : (r.map fun e => e.1).Perm vars := by
    refine hsp.perm_of_length_le ?_
    rw [List.length_map]
    omega
  intro v hv
  have hvk : v ∈ r.map fun e => e.1 := hperm.mem_iff.mpr hv
  have := (lookupA_isSome_iff r v).mpr hvk
  exact Option.isSome_iff_exists.mp this

theorem isConsistentA_of_sol (bc : BC) (a : Assignment) (var : Var) (gS : Var → Val)
    (hnda : (a.map fun e => e.1).Nodup)
    (hagree : ∀ v w, lookupA a v = some w → w = gS v)
    (hSconstr : ∀ e ∈ bc, (gS e.1.1, gS e.1.2) ∈ e.2) :
    isConsistentA bc a var (gS var) = true := by
  rw [isConsistentA, List.all_eq_true]
  intro e he
  obtain ⟨w, vw⟩ := e
  have hlk : lookupA a w = some vw := lookupA_of_mem_nodup a w vw hnda he
  have hvw : vw = gS w := hagree w vw hlk
  subst hvw
  rw [pairOk]
  cases h1 : lookupA bc (var, w) with
  | some s =>
    have hm : ((var, w), s) ∈ bc := lookupA_mem bc (var, w) s h1
    simpa using hSconstr ((var, w), s) hm
  | none =>
    cases h2 : lookupA bc (w, var) with
    | some s =>
      have hm : ((w, var), s) ∈ bc := lookupA_mem bc (w, var) s h2
      simpa using hSconstr ((w, var), s) hm
    | none => rfl

theorem tryValuesGo_complete
    (bt : Domains → Assignment → Option (Option Assignment × Domains × Assignment))
    (bc : BC) (var : Var) (a : Assignment) (d : Domains) (gS : Var → Val)
    (hu : lookupA a var = none) (hnda : (a.map fun e => e.1).Nodup)
    (hagree : ∀ v w, lookupA a v = some w → w = gS v)
    (hSconstr : ∀ e ∈ bc, (gS e.1.1, gS e.1.2) ∈ e.2)
    (hbtState : ∀ d' a' r d1 a1, bt d' a' = some (r, d1, a1) →
      d1 = d' ∧ (r = none → a1 = a') ∧ (∀ x, r = some x → a1 = x))
    (hbtSome : ∀ value : Val, (bt d (a ++ [(var, value)])).isSome)
    (hbtComplete : ∃ r d1 a1, bt d (a ++ [(var, gS var)]) = some (some r, d1, a1)) :
    ∀ values : List Val, gS var ∈ values →
      ∃ r d1 a1, tryValuesGo bt bc var values d a = some (some r, d1, a1) := by
  intro values
  induction values with
  | nil => intro hm; cases hm
  | cons value rest ih =>
    intro hm
    by_cases hv : value = gS var
    · have hcons : isConsistentA bc a var value = true := by
        rw [hv]
        exact isConsistentA_of_sol bc a var gS hnda hagree hSconstr
      simp only [tryValuesGo, make_inference]
      rw [if_pos hcons, hv]
      obtain ⟨r, d1, a1, hb⟩ := hbtComplete
      rw [hb]
      exact ⟨r, d1, a1, rfl⟩
    · have hm2 : gS var ∈ rest := by
        rcases List.mem_cons.mp hm with h | h
        · exact absurd h.symm hv
        · exact h
      simp only [tryValuesGo, make_inference]
      by_cases hcons : isConsistentA bc a var value
      · rw [if_pos hcons]
        cases hb : bt d (a ++ [(var, value)]) with
        | none =>
          have := hbtSome value
          rw [hb] at this
          cases this
        | some res =>
          obtain ⟨rb, d2, a2⟩ := res
          obtain ⟨hd2, ha2n, _⟩ := hbtState d (a ++ [(var, value)]) rb d2 a2 hb
          cases rb with
          | some r0 => exact ⟨r0, d2, a2, rfl⟩
          | none =>
            simp only
            have ha2 : a2 = a ++ [(var, value)] := ha2n rfl
            have hrest : restore_inferences d2 [] = d := by simp [restore_inferences, hd2]
            have hrem : removeKey a2 var = a := by
              rw [ha2]
              exact removeKey_append_single a var value hu
            rw [hrest, hrem]
            exact ih hm2
      · rw [if_neg hcons]
        exact ih hm2

theorem backtrackF_complete :
    ∀ (fuel : Nat) (vars : List Var) (bc : BC) (d : Domains) (a : Assignment)
      (gS : Var → Val),
      vars.Nodup → (∀ e ∈ a, e.1 ∈ vars) → (a.map fun e => e.1).Nodup →
      (∀ v w, lookupA a v = some w → w = gS v) →
      (∀ v ∈ vars, gS v ∈ lookupD d v) →
      (∀ e ∈ bc, (gS e.1.1, gS e.1.2) ∈ e.2) →
      (vars.filter (fun v => !(lookupA a v).isSome)).length < fuel →
      ∃ r d1 a1, backtrackF fuel vars bc d a = some (some r, d1, a1) := by
  intro fuel
  induction fuel with
  | zero => intro vars bc d a gS _ _ _ _ _ _ h; omega
  | succ fuel ih =>
    intro vars bc d a gS hnd hka hnda hagree hSdom hSconstr hfuel
    simp only [backtrackF]
    by_cases hlen : a.length = vars.length
    · rw [if_pos hlen]
      exact ⟨a, d, a, rfl⟩
    · rw [if_neg hlen]
      cases hfl : vars.filter (fun v => !(lookupA a v).isSome) with
      | nil => exact absurd (keys_complete_of_filter_nil vars a hnd hka hnda hfl) hlen
      | cons var tail =>
        obtain ⟨hu, hvar⟩ := filter_head_unassigned vars a var tail hfl
        refine tryValuesGo_complete (backtrackF fuel vars bc) bc var a d gS hu hnda
          hagree hSconstr
          (fun d' a' r d1 a1 h => backtrackF_state fuel vars bc d' a' r d1 a1 h)
          ?_ ?_ (lookupD d var) (hSdom var hvar)
        · intro value
          obtain ⟨hka2, hnda2⟩ := append_single_invariants vars a var value hu hvar hka hnda
          refine backtrackF_isSome fuel vars bc d (a ++ [(var, value)]) hnd hka2 hnda2 ?_
          have hdec := ucount_append_lt vars a var value hvar hu
          have hlen2 : (vars.filter (fun v => !(lookupA a v).isSome)).length = tail.length + 1 := by
            rw [hfl]
            simp
          rw [hfl] at hfuel
          simp only [List.length_cons] at hfuel
          omega
        · obtain ⟨hka2, hnda2⟩ :=
            append_single_invariants vars a var (gS var) hu hvar hka hnda
          refine ih vars bc d (a ++ [(var, gS var)]) gS hnd hka2 hnda2 ?_ hSdom hSconstr ?_
          · intro v w hl
            rcases lookupA_append_single_elim a var v (gS var) w hl with hl2 | ⟨_, hv2, hw2⟩
            · exact hagree v w hl2
            · rw [hw2, hv2]
          · have hdec := ucount_append_lt vars a var (gS var) hvar hu
            rw [hfl] at hfuel
            simp only [List.length_cons] at hfuel
            have hlen2 : (vars.filter (fun v => !(lookupA a v).isSome)).length
                = tail.length + 1 := by
              rw [hfl]
              simp
            omega

theorem lookupA_map_graph (g : Var → Val) :
    ∀ (vs : List Var) (v : Var), v ∈ vs →
      lookupA (vs.map fun w => (w, g w)) v = some (g v) := by
  intro vs
  induction vs with
  | nil => intro v hv; cases hv
  | cons u rest ih =>
    intro v hv
    by_cases hu : u = v
    · subst hu
      simp [lookupA]
    · rcases List.mem_cons.mp hv with rfl | hvr
      · exact absurd rfl hu
      · simp only [List.map_cons, lookupA, hu, if_false]
        exact ih v hvr

theorem map_graph_mem_allAssignments (d : Domains) (g : Var → Val) :
    ∀ vs : List Var, (∀ v ∈ vs, g v ∈ lookupD d v) →
      (vs.map fun v => (v, g v)) ∈ allAssignments d vs := by
  intro vs
  induction vs with
  | nil => intro _; simp [allAssignments]
  | cons v rest ih =>
    intro hdom
    simp only [allAssignments, List.map_cons, List.mem_flatMap]
    refine ⟨g v, hdom v (List.mem_cons_self _ _), ?_⟩
    rw [List.mem_map]
    exact ⟨rest.map fun w => (w, g w),
      ih (fun w hw => hdom w (List.mem_cons_of_mem _ hw)), rfl⟩

theorem allAssignments_char (d : Domains) :
    ∀ (vs : List Var), vs.Nodup → ∀ S ∈ allAssignments d vs,
      ∀ v ∈ vs, ∃ w, lookupA S v = some w ∧ w ∈ lookupD d v := by
  intro vs
  induction vs with
  | nil => intro _ S _ v hv; cases hv
  | cons u rest ih =>
    intro hnd S hS v hv
    simp only [allAssignments, List.mem_flatMap, List.mem_map] at hS
    obtain ⟨val, hval, S2, hS2, rfl⟩ := hS
    simp only [List.nodup_cons] at hnd
    rcases List.mem_cons.mp hv with rfl | hvr
    · exact ⟨val, by simp [lookupA], hval⟩
    · have hne : u ≠ v := fun hc => hnd.1 (hc ▸ hvr)
      simp only [lookupA, hne, if_false]
      exact ih hnd.2 S2 hS2 v hvr

theorem satisfiesAll_elim (bc : BC) (S : Assignment) (h : satisfiesAll bc S = true) :
    ∀ e ∈ bc, ∃ vx vy : Val,
      lookupA S e.1.1 = some vx ∧ lookupA S e.1.2 = some vy ∧ (vx, vy) ∈ e.2 := by
  intro e he
  have := List.all_eq_true.mp h e he
  cases hx : lookupA S e.1.1 with
  | none => rw [hx] at this; cases hy : lookupA S e.1.2 with
    | none => rw [hy] at this; simp at this
    | some vy => rw [hy] at this; simp at this
  | some vx =>
    cases hy : lookupA S e.1.2 with
    | none => rw [hx, hy] at this; simp at this
    | some vy =>
      rw [hx, hy] at this
      simp only [decide_eq_true_eq] at this
      exact ⟨vx, vy, rfl, rfl, this⟩

theorem satisfiesAll_intro (bc : BC) (S : Assignment)
    (h : ∀ e ∈ bc, ∃ vx vy : Val,
      lookupA S e.1.1 = some vx ∧ lookupA S e.1.2 = some vy ∧ (vx, vy) ∈ e.2) :
    satisfiesAll bc S = true := by
  rw [satisfiesAll, List.all_eq_true]
  intro e he
  obtain ⟨vx, vy, hx, hy, hm⟩ := h e he
  rw [hx, hy]
  simpa using hm

theorem backtracking_search_run (st : CSPState) (hnd : st.vars.Nodup) :
    ∃ r d1 a1,
      backtrackF (st.vars.length + 1) st.vars st.bc st.domains [] = some (r, d1, a1) ∧
      backtracking_search st = (r, d1) := by
  have hs : (backtrackF (st.vars.length + 1) st.vars st.bc st.domains []).isSome := by
    refine backtrackF_isSome (st.vars.length + 1) st.vars st.bc st.domains [] hnd
      (by intro e he; cases he) (by simp) ?_
    have : (st.vars.filter (fun v => !(lookupA ([] : Assignment) v).isSome)).length
        ≤ st.vars.length := st.vars.length_filter_le _
    omega
  cases hb : backtrackF (st.vars.length + 1) st.vars st.bc st.domains [] with
  | none => rw [hb] at hs; cases hs
  | some res =>
    obtain ⟨r, d1, a1⟩ := res
    refine ⟨r, d1, a1, rfl, ?_⟩
    unfold backtracking_search
    rw [hb]

theorem flatMap_congr_left {α β : Type} (l : List α) (f g : α → List β)
    (h : ∀ a ∈ l, f a = g a) : l.flatMap f = l.flatMap g := by
  induction l with
  | nil => rfl
  | cons a rest ih =>
    rw [List.flatMap_cons, List.flatMap_cons, h a (List.mem_cons_self _ _),
      ih (fun b hb => h b (List.mem_cons_of_mem _ hb))]

theorem map_pair_getD_shift (c x : Var) (l : List Var) :
    ∀ (K s : Nat), ((List.range' (s + 1) K).map fun j => (c, (x :: l).getD j "")) =
      (List.range' s K).map fun j => (c, l.getD j "") := by
  intro K
  induction K with
  | zero => intro s; rfl
  | succ K ih =>
    intro s
    rw [List.range'_succ, List.range'_succ]
    simp only [List.map_cons, List.getD_cons_succ]
    rw [ih (s + 1)]

theorem map_pair_getD_range (c : Var) (l : List Var) :
    ((List.range l.length).map fun j => (c, l.getD j "")) = l.map fun y => (c, y) := by
  induction l with
  | nil => rfl
  | cons y rest ih =>
    rw [List.length_cons, List.range_succ_eq_map]
    simp only [List.map_cons, List.getD_cons_zero, List.map_map]
    have hcong : (List.range rest.length).map
        ((fun j => (c, (y :: rest).getD j "")) ∘ Nat.succ)
        = (List.range rest.length).map fun j => (c, rest.getD j "") :=
      List.map_congr_left (fun j _ => by simp [List.getD_cons_succ])
    rw [hcong, ih]

theorem alldiff_cons (x : Var) (l : List Var) :
    alldiff (x :: l) = (l.map fun y => (x, y)) ++ alldiff l := by
  cases l with
  | nil => rfl
  | cons y rest =>
    unfold alldiff
    simp only [List.length_cons, Nat.add_sub_cancel]
    rw [List.range_succ_eq_map, List.flatMap_cons, List.flatMap_map]
    congr 1
    · -- values paired with the head variable
      have h0 : (rest.length + 1 + 1) - (0 + 1) = rest.length + 1 := by omega
      rw [h0]
      simp only [List.getD_cons_zero]
      rw [map_pair_getD_shift x x (y :: rest) (rest.length + 1) 0]
      rw [← List.range_eq_range']
      exact map_pair_getD_range x (y :: rest)
    · -- the remaining pairs form alldiff of the tail
      refine flatMap_congr_left _ _ _ ?_
      intro i _
      have h1 : (rest.length + 1 + 1) - (Nat.succ i + 1) = (rest.length + 1) - (i + 1) := by
        omega
      rw [h1]
      simp only [List.getD_cons_succ]
      exact map_pair_getD_shift ((y :: rest).getD i "") x (y :: rest) _ (i + 1)

theorem alldiff_nil : alldiff [] = [] := rfl

theorem mem_alldiff_endpoints :
    ∀ (l : List Var) (p : Var × Var), p ∈ alldiff l → p.1 ∈ l ∧ p.2 ∈ l := by
  intro l
  induction l with
  | nil => intro p hp; rw [alldiff_nil] at hp; cases hp
  | cons x rest ih =>
    intro p hp
    rw [alldiff_cons] at hp
    rcases List.mem_append.mp hp with hp | hp
    · obtain ⟨y, hy, rfl⟩ := List.mem_map.mp hp
      exact ⟨List.mem_cons_self _ _, List.mem_cons_of_mem _ hy⟩
    · obtain ⟨h1, h2⟩ := ih p hp
      exact ⟨List.mem_cons_of_mem _ h1, List.mem_cons_of_mem _ h2⟩

theorem alldiff_nodup (l : List Var) (hnd : l.Nodup) : (alldiff l).Nodup := by
  induction l with
  | nil => rw [alldiff_nil]; exact List.nodup_nil
  | cons x rest ih =>
    rw [List.nodup_cons] at hnd
    rw [alldiff_cons, List.nodup_append]
    refine ⟨hnd.2.map (fun a b hab => ?_), ih hnd.2, ?_⟩
    · injection hab
    · intro q hq hq2
      obtain ⟨y, _, rfl⟩ := List.mem_map.mp hq
      exact hnd.1 (mem_alldiff_endpoints rest (x, y) hq2).1

theorem alldiff_irrefl (l : List Var) (hnd : l.Nodup) :
    ∀ p ∈ alldiff l, p.1 ≠ p.2 := by
  induction l with
  | nil => intro p hp; rw [alldiff_nil] at hp; cases hp
  | cons x rest ih =>
    rw [List.nodup_cons] at hnd
    intro p hp
    rw [alldiff_cons] at hp
    rcases List.mem_append.mp hp with hp | hp
    · obtain ⟨y, hy, rfl⟩ := List.mem_map.mp hp
      intro hc
      have hc2 : x = y := hc
      exact hnd.1 (by rw [hc2]; exact hy)
    · exact ih hnd.2 p hp

theorem alldiff_mem_iff (l : List Var) (hnd : l.Nodup) (a b : Var) (hne : a ≠ b) :
    (a ∈ l ∧ b ∈ l) ↔ ((a, b) ∈ alldiff l ∨ (b, a) ∈ alldiff l) := by
  constructor
  · rintro ⟨ha, hb⟩
    induction l with
    | nil => cases ha
    | cons x rest ih =>
      rw [List.nodup_cons] at hnd
      rcases List.mem_cons.mp ha with rfl | har
      · have hbr : b ∈ rest := by
          rcases List.mem_cons.mp hb with rfl | hbr
          · exact absurd rfl hne
          · exact hbr
        left
        rw [alldiff_cons]
        exact List.mem_append.mpr (Or.inl (List.mem_map.mpr ⟨b, hbr, rfl⟩))
      · rcases List.mem_cons.mp hb with rfl | hbr
        · right
          rw [alldiff_cons]
          exact List.mem_append.mpr (Or.inl (List.mem_map.mpr ⟨a, har, rfl⟩))
        · rcases ih hnd.2 har hbr with h | h
          · left
            rw [alldiff_cons]
            exact List.mem_append.mpr (Or.inr h)
          · right
            rw [alldiff_cons]
            exact List.mem_append.mpr (Or.inr h)
  · rintro (h | h)
    · exact mem_alldiff_endpoints l (a, b) h
    · obtain ⟨h1, h2⟩ := mem_alldiff_endpoints l (b, a) h
      exact ⟨h2, h1⟩

theorem alldiff_not_both (l : List Var) (hnd : l.Nodup) (a b : Var) :
    ¬((a, b) ∈ alldiff l ∧ (b, a) ∈ alldiff l) := by
  induction l with
  | nil => rintro ⟨h, _⟩; rw [alldiff_nil] at h; cases h
  | cons x rest ih =>
    rw [List.nodup_cons] at hnd
    rintro ⟨h1, h2⟩
    rw [alldiff_cons] at h1 h2
    rcases List.mem_append.mp h1 with h1 | h1
    · obtain ⟨y, hy, hxy⟩ := List.mem_map.mp h1
      injection hxy with hxy1 hxy2
      rcases List.mem_append.mp h2 with h2 | h2
      · obtain ⟨z, hz, hxz⟩ := List.mem_map.mp h2
        injection hxz with hxz1 hxz2
        exact hnd.1 (by rw [hxz1, ← hxy2]; exact hy)
      · have hmem := (mem_alldiff_endpoints rest (b, a) h2).2
        exact hnd.1 (by rw [hxy1]; exact hmem)
    · rcases List.mem_append.mp h2 with h2 | h2
      · obtain ⟨z, hz, hxz⟩ := List.mem_map.mp h2
        injection hxz with hxz1 hxz2
        have hmem := (mem_alldiff_endpoints rest (a, b) h1).2
        exact hnd.1 (by rw [hxz1]; exact hmem)
      · exact ih hnd.2 ⟨h1, h2⟩

theorem alldiff_length_double (l : List Var) :
    2 * (alldiff l).length = l.length * (l.length - 1) := by
  induction l with
  | nil => rfl
  | cons x rest ih =>
    rw [alldiff_cons, List.length_append, List.length_map, List.length_cons]
    cases hn : rest.length with
    | zero =>
      have : rest = [] := List.length_eq_zero.mp hn
      subst this
      simp [alldiff_nil]
    | succ m =>
      rw [hn] at ih
      simp only [Nat.add_sub_cancel, Nat.succ_sub_one] at ih ⊢
      have : 2 * (m + 1 + (alldiff rest).length) = 2 * (m + 1) + 2 * (alldiff rest).length := by
        ring
      rw [this, ih]
      ring

theorem alldiff_length (l : List Var) :
    (alldiff l).length = l.length * (l.length - 1) / 2 := by
  have h := alldiff_length_double l
  generalize l.length * (l.length - 1) = A at h ⊢
  omega

theorem alldiff_triple (a b c : Var) : alldiff [a, b, c] = [(a, b), (a, c), (b, c)] := rfl

theorem buildBC_isSome_iff (domains : Domains) :
    ∀ (edges : List (Var × Var)) (acc : BC),
      (buildBC domains edges acc).isSome ↔
        ∀ e ∈ edges, (lookupA domains e.1).isSome ∧
          (lookupD domains e.1 ≠ [] → (lookupA domains e.2).isSome) := by
  intro edges
  induction edges with
  | nil => intro acc; simp [buildBC]
  | cons e rest ih =>
    intro acc
    obtain ⟨v1, v2⟩ := e
    simp only [buildBC]
    cases h1 : lookupA domains v1 with
    | none =>
      simp only [Option.isSome_none, Bool.false_eq_true]
      constructor
      · intro h; cases h
      · intro h
        have := (h (v1, v2) (List.mem_cons_self _ _)).1
        rw [h1] at this
        cases this
    | some d1 =>
      simp only
      have hd1 : lookupD domains v1 = d1 := by simp [lookupD, h1]
      by_cases hde : d1.isEmpty
      · rw [if_pos hde]
        have hd1nil : d1 = [] := by
          cases d1 with
          | nil => rfl
          | cons a l => simp [List.isEmpty] at hde
        rw [ih]
        constructor
        · intro h f hf
          rcases List.mem_cons.mp hf with rfl | hfr
          · exact ⟨by simp [h1], fun hne => absurd (hd1.trans hd1nil) hne⟩
          · exact h f hfr
        · intro h f hf
          exact h f (List.mem_cons_of_mem _ hf)
      · rw [if_neg hde]
        have hne1 : lookupD domains v1 ≠ [] := by
          rw [hd1]
          intro hc
          rw [hc] at hde
          exact hde rfl
        cases h2 : lookupA domains v2 with
        | none =>
          simp only [Option.isSome_none, Bool.false_eq_true]
          constructor
          · intro h; cases h
          · intro h
            have := (h (v1, v2) (List.mem_cons_self _ _)).2 hne1
            rw [h2] at this
            cases this
        | some d2 =>
          rw [ih]
          constructor
          · intro h f hf
            rcases List.mem_cons.mp hf with rfl | hfr
            · exact ⟨by simp [h1], fun _ => by simp [h2]⟩
            · exact h f hfr
          · intro h f hf
            exact h f (List.mem_cons_of_mem _ hf)

/-- C5 (amended): construction succeeds exactly when, for every edge, the
first variable has an entry in the domains mapping and, whenever that domain
is nonempty, the second variable has one too.  The variables list is never
consulted, and a second variable missing from the domains mapping is
tolerated when the first variable's domain is empty, because the inner loop
of `__init__` that indexes `domains[variable2]` never runs then (see the
counterexample). -/
theorem c5_build_succeeds_iff (vars : List Var) (domains : Domains)
    (edges : List (Var × Var)) :
    (buildCSP vars domains edges).isSome ↔
      ∀ e ∈ edges, (lookupA domains e.1).isSome ∧
        (lookupD domains e.1 ≠ [] → (lookupA domains e.2).isSome) := by
  unfold buildCSP
  rw [Option.isSome_map']
  exact buildBC_isSome_iff domains edges []

/-- C5, counterexample to the claim as stated: the edge `("A", "B")` refers to
variables absent from the (empty) variables list, yet construction succeeds,
because `CSP.__init__` only consults the domains mapping; and with
`domain(A)` empty, construction succeeds although `"B"` has no domains entry
at all, because `domains[variable2]` is only indexed inside the loop over
`domains[variable1]`. -/
theorem c5_counterexample :
    (buildCSP [] [("A", [1]), ("B", [2])] [("A", "B")]).isSome = true ∧
      "A" ∉ ([] : List Var) ∧ "B" ∉ ([] : List Var) ∧
      (buildCSP ["A", "B"] [("A", ([] : List Val))] [("A", "B")]).isSome = true ∧
      lookupA ([("A", ([] : List Val))] : Domains) "B" = none := by decide

/-- C6: with the active no-inference configuration, every completed
`backtrack` call leaves `self.domains` exactly as it found them, a failed call
also restores the assignment exactly, and the whole search leaves
`self.domains` equal to the pre-search state. -/
theorem c6_backtrack_restore :
    (∀ (fuel : Nat) (vars : List Var) (bc : BC) (d : Domains) (a : Assignment)
      (r : Option Assignment) (d1 : Domains) (a1 : Assignment),
      backtrackF fuel vars bc d a = some (r, d1, a1) →
      d1 = d ∧ (r = none → a1 = a)) ∧
    (∀ st : CSPState, (backtracking_search st).2 = st.domains) := by
  constructor
  · intro fuel vars bc d a r d1 a1 h
    obtain ⟨h1, h2, _⟩ := backtrackF_state fuel vars bc d a r d1 a1 h
    exact ⟨h1, h2⟩
  · intro st
    unfold backtracking_search
    cases hb : backtrackF (st.vars.length + 1) st.vars st.bc st.domains [] with
    | none => rfl
    | some res =>
      obtain ⟨r, d1, a1⟩ := res
      obtain ⟨h1, _, _⟩ := backtrackF_state _ st.vars st.bc st.domains [] r d1 a1 hb
      simpa using h1

/-- C6 witness: the restore property applied to a concrete failing search (one
variable with an empty domain). -/
theorem c6_witness :
    backtrackF 1 ["A"] [] [("A", [])] [] = some (none, [("A", [])], []) ∧
      ([("A", [])] : Domains) = [("A", [])] ∧
      ((none : Option Assignment) = none → ([] : Assignment) = []) := by
  refine ⟨by decide, ?_, ?_⟩
  · exact (c6_backtrack_restore.1 1 ["A"] [] [("A", [])] [] none [("A", [])] []
      (by decide)).1
  · exact (c6_backtrack_restore.1 1 ["A"] [] [("A", [])] [] none [("A", [])] []
      (by decide)).2

/-- C8 (amended): on a state where both variables have entries in the
domains mapping (so `_revise` raises no `KeyError`) but no constraint key
exists in either direction, `_revise(xi, xj)` treats every value of
`domain(xi)` as unsupported: it empties `domain(xi)` and reports a revision
exactly when `domain(xi)` was nonempty (the claim's "no change, return False"
holds only for an already-empty `domain(xi)`). -/
theorem c8_revise_unconstrained (bc : BC) (d : Domains) (xi xj : Var)
    (di dj : List Val)
    (hdi : lookupA d xi = some di) ( _hdj : lookupA d xj = some dj)
    (h1 : lookupA bc (xi, xj) = none) (h2 : lookupA bc (xj, xi) = none) :
    revise bc d xi xj = (!di.isEmpty, updateD d xi []) := by
  have hD : lookupD d xi = di := by simp [lookupD, hdi]
  have hhs : ∀ vi, hasSupport bc d xi xj vi = false := by
    intro vi
    simp [hasSupport, supportOk, h1, h2]
  have hf : (revise bc d xi xj).1 = !di.isEmpty := by
    rw [revise_fst]
    have : ((lookupD d xi).filter fun vi => !hasSupport bc d xi xj vi) = lookupD d xi :=
      List.filter_eq_self.mpr (fun vi _ => by simp [hhs vi])
    rw [this, hD]
  have hs : (revise bc d xi xj).2 = updateD d xi [] := by
    rw [revise_snd]
    have : ((lookupD d xi).filter (hasSupport bc d xi xj)) = [] :=
      List.filter_eq_nil_iff.mpr (fun vi _ => by simp [hhs vi])
    rw [this]
  have hsplit : revise bc d xi xj = ((revise bc d xi xj).1, (revise bc d xi xj).2) := rfl
  rw [hsplit, hf, hs]

/-- C8 witness: a concrete pair with both domain entries present, no
constraint key in either direction, and a nonempty `domain(A)`, which gets
emptied with result `true`. -/
theorem c8_witness :
    lookupA ([] : BC) ("A", "B") = none ∧ lookupA ([] : BC) ("B", "A") = none ∧
      lookupA ([("A", [1]), ("B", [5])] : Domains) "A" = some [1] ∧
      lookupA ([("A", [1]), ("B", [5])] : Domains) "B" = some [5] ∧
      revise [] [("A", [1]), ("B", [5])] "A" "B" =
        (!([1] : List Val).isEmpty, updateD [("A", [1]), ("B", [5])] "A" []) :=
  ⟨rfl, rfl, rfl, rfl,
    c8_revise_unconstrained [] [("A", [1]), ("B", [5])] "A" "B" [1] [5] rfl rfl rfl rfl⟩

/-- C8, counterexample to the claim as stated: with `domain(A) = {1}` and
`domain(B) = {5}` both present and no constraint key in either direction,
`_revise("A", "B")` returns `True` and empties `domain(A)` instead of leaving
it unchanged and returning `False`. -/
theorem c8_counterexample :
    lookupA ([] : BC) ("A", "B") = none ∧ lookupA ([] : BC) ("B", "A") = none ∧
      lookupA ([("A", [1]), ("B", [5])] : Domains) "A" = some [1] ∧
      lookupA ([("A", [1]), ("B", [5])] : Domains) "B" = some [5] ∧
      (revise [] [("A", [1]), ("B", [5])] "A" "B").1 = true ∧
      (revise [] [("A", [1]), ("B", [5])] "A" "B").2 ≠ [("A", [1]), ("B", [5])] := by decide

/-- C9: for a duplicate-free variable list, `alldiff` returns exactly one pair
per unordered two-element subset — `n*(n-1)/2` pairs, no duplicates, no
self-pairs, never both orientations — and on `[a, b, c]` exactly
`[(a,b), (a,c), (b,c)]`. -/
theorem c9_alldiff_correct (l : List Var) (hnd : l.Nodup) :
    (alldiff l).length = l.length * (l.length - 1) / 2 ∧
    (alldiff l).Nodup ∧
    (∀ p ∈ alldiff l, p.1 ≠ p.2) ∧
    (∀ a b : Var, a ≠ b → ((a ∈ l ∧ b ∈ l) ↔ ((a, b) ∈ alldiff l ∨ (b, a) ∈ alldiff l))) ∧
    (∀ a b : Var, ¬((a, b) ∈ alldiff l ∧ (b, a) ∈ alldiff l)) ∧
    (∀ a b c : Var, alldiff [a, b, c] = [(a, b), (a, c), (b, c)]) :=
  ⟨alldiff_length l, alldiff_nodup l hnd, alldiff_irrefl l hnd,
    fun a b hne => alldiff_mem_iff l hnd a b hne,
    fun a b => alldiff_not_both l hnd a b,
    fun a b c => alldiff_triple a b c⟩

/-- C9 witness: the properties instantiated on the distinct list
`["a", "b", "c"]`. -/
theorem c9_witness :
    List.Nodup ["a", "b", "c"] ∧
    ((alldiff ["a", "b", "c"]).length = 3 * (3 - 1) / 2 ∧
      (alldiff ["a", "b", "c"]).Nodup ∧
      (∀ p ∈ alldiff ["a", "b", "c"], p.1 ≠ p.2) ∧
      (∀ a b : Var, a ≠ b → ((a ∈ ["a", "b", "c"] ∧ b ∈ ["a", "b", "c"]) ↔
        ((a, b) ∈ alldiff ["a", "b", "c"] ∨ (b, a) ∈ alldiff ["a", "b", "c"]))) ∧
      (∀ a b : Var, ¬((a, b) ∈ alldiff ["a", "b", "c"] ∧ (b, a) ∈ alldiff ["a", "b", "c"])) ∧
      (∀ a b c : Var, alldiff [a, b, c] = [(a, b), (a, c), (b, c)])) :=
  ⟨by decide, c9_alldiff_correct ["a", "b", "c"] (by decide)⟩

/-- C10: every arc ever dequeued by `ac_3` has a matching constraint key in
one of the two directions: the run of the loop in which `_revise` is guarded
against keyless arcs is lockstep-equal to the real run, so the keyless branch
of `_revise` never executes from within `ac_3`. -/
theorem c10_ac3_arcs_have_keys (st : CSPState) : ac3Checked st = some (ac_3 st) := by
  unfold ac3Checked
  rw [ac3LoopCheckedF_eq _ st.bc st.domains _ ?_]
  · exact ac_3_eq_loop st
  · intro p hp
    have hs : (lookupA st.bc p).isSome :=
      (lookupA_isSome_iff _ _).mpr hp
    simp only [hasKeyB, Bool.or_eq_true]
    exact Or.inl hs

theorem partialOk_nil (bc : BC) : partialOk bc [] := by
  intro e _ vx vy hx _
  cases hx

/-- C1: soundness of search.  For every CSP instance built from an
irreflexive edge list over declared, duplicate-free variables, if
`backtracking_search` returns an assignment then every registered binary
constraint is satisfied: both endpoint variables are assigned and the value
pair lies in the constraint's compatible-pairs set. -/
theorem c1_search_soundness (vars : List Var) (domains : Domains)
    (edges : List (Var × Var)) (st : CSPState)
    (hirr : ∀ e ∈ edges, e.1 ≠ e.2)
    (hev : ∀ e ∈ edges, e.1 ∈ vars ∧ e.2 ∈ vars)
    (hnd : vars.Nodup)
    (hbuild : buildCSP vars domains edges = some st)
    (A : Assignment) (hA : (backtracking_search st).1 = some A) :
    ∀ e ∈ st.bc, ∃ vx vy : Val,
      lookupA A e.1.1 = some vx ∧ lookupA A e.1.2 = some vy ∧ (vx, vy) ∈ e.2 := by
  obtain ⟨hg, hkeys, hvv, hdd⟩ := buildCSP_good vars domains edges st hirr hbuild
  have hndst : st.vars.Nodup := by rw [hvv]; exact hnd
  obtain ⟨r, d1, a1, hbf, hsearch⟩ := backtracking_search_run st hndst
  rw [hsearch] at hA
  simp only at hA
  rw [hA] at hbf
  obtain ⟨hpa, hka, hnda, hlen, _⟩ := backtrackF_sound _ st.vars st.bc st.domains [] A d1 a1
    hg (partialOk_nil st.bc) (by intro e he; cases he) (by simp)
    (by intro e he; cases he) hbf
  intro e he
  have hkm : e.1 ∈ edges := hkeys e.1 (List.mem_map.mpr ⟨e, he, rfl⟩)
  have hx : e.1.1 ∈ st.vars := by rw [hvv]; exact (hev e.1 hkm).1
  have hy : e.1.2 ∈ st.vars := by rw [hvv]; exact (hev e.1 hkm).2
  obtain ⟨vx, hvx⟩ := assigned_of_total st.vars A hndst hka hnda hlen e.1.1 hx
  obtain ⟨vy, hvy⟩ := assigned_of_total st.vars A hndst hka hnda hlen e.1.2 hy
  exact ⟨vx, vy, hvx, hvy, hpa e he vx vy hvx hvy⟩

/-- C1 witness: the two-variable inequality instance; the returned assignment
satisfies the registered constraint, instantiated at its single entry. -/
theorem c1_witness :
    ∃ vx vy : Val,
      lookupA [("A", 1), ("B", 2)] "A" = some vx ∧
      lookupA [("A", 1), ("B", 2)] "B" = some vy ∧
      (vx, vy) ∈ ([(1, 2), (2, 1)] : List (Val × Val)) :=
  c1_search_soundness ["A", "B"] [("A", [1, 2]), ("B", [1, 2])] [("A", "B")]
    ⟨["A", "B"], [("A", [1, 2]), ("B", [1, 2])], [(("A", "B"), [(1, 2), (2, 1)])]⟩
    (by decide) (by decide) (by decide) (by decide) [("A", 1), ("B", 2)] (by decide)
    (("A", "B"), [(1, 2), (2, 1)]) (by decide)

/-- C2: completeness of search.  On every CSP instance built from an
irreflexive edge list over declared, duplicate-free variables,
`backtracking_search` returns absence exactly when the brute-force solution
set is empty, and any returned assignment is a complete satisfying one: it
assigns every variable a value from its domain and satisfies every registered
binary constraint. -/
theorem c2_search_completeness (vars : List Var) (domains : Domains)
    (edges : List (Var × Var)) (st : CSPState)
    (hirr : ∀ e ∈ edges, e.1 ≠ e.2)
    (hev : ∀ e ∈ edges, e.1 ∈ vars ∧ e.2 ∈ vars)
    (hnd : vars.Nodup)
    (hbuild : buildCSP vars domains edges = some st) :
    ((backtracking_search st).1 = none ↔ bruteSolutions st = []) ∧
    (∀ A, (backtracking_search st).1 = some A →
      (∀ v ∈ st.vars, ∃ w, lookupA A v = some w ∧ w ∈ lookupD st.domains v) ∧
      partialOk st.bc A) := by
  obtain ⟨hg, hkeys, hvv, hdd⟩ := buildCSP_good vars domains edges st hirr hbuild
  have hndst : st.vars.Nodup := by rw [hvv]; exact hnd
  obtain ⟨r, d1, a1, hbf, hsearch⟩ := backtracking_search_run st hndst
  have hbcv : ∀ e ∈ st.bc, e.1.1 ∈ st.vars ∧ e.1.2 ∈ st.vars := by
    intro e he
    have hkm : e.1 ∈ edges := hkeys e.1 (List.mem_map.mpr ⟨e, he, rfl⟩)
    rw [hvv]
    exact hev e.1 hkm
  have hsound : ∀ A, r = some A →
      (∀ v ∈ st.vars, ∃ w, lookupA A v = some w ∧ w ∈ lookupD st.domains v) ∧
      partialOk st.bc A := by
    intro A hA
    rw [hA] at hbf
    obtain ⟨hpa, hka, hnda, hlen, hdom⟩ := backtrackF_sound _ st.vars st.bc st.domains [] A d1 a1
      hg (partialOk_nil st.bc) (by intro e he; cases he) (by simp)
      (by intro e he; cases he) hbf
    refine ⟨?_, hpa⟩
    intro v hv
    obtain ⟨w, hw⟩ := assigned_of_total st.vars A hndst hka hnda hlen v hv
    exact ⟨w, hw, hdom (v, w) (lookupA_mem A v w hw)⟩
  constructor
  · constructor
    · -- search failed: no brute-force solution can exist
      intro hnone
      rw [hsearch] at hnone
      simp only at hnone
      by_contra hne
      obtain ⟨S, hS⟩ := List.exists_mem_of_ne_nil _ hne
      obtain ⟨hS1, hS2⟩ := List.mem_filter.mp hS
      have hchar := allAssignments_char st.domains st.vars hndst S hS1
      obtain ⟨rS, dS, aS, hcomp⟩ := backtrackF_complete (st.vars.length + 1)
        st.vars st.bc st.domains [] (fun v => (lookupA S v).getD 0) hndst
        (by intro e he; cases he) (by simp)
        (by intro v w hw; cases hw)
        (by
          intro v hv
          obtain ⟨w, hw1, hw2⟩ := hchar v hv
          simpa [hw1] using hw2)
        (by
          intro e he
          obtain ⟨vx, vy, hx, hy, hm⟩ := satisfiesAll_elim st.bc S hS2 e he
          simpa [hx, hy] using hm)
        (by
          have := st.vars.length_filter_le (fun v => !(lookupA ([] : Assignment) v).isSome)
          omega)
      rw [hbf] at hcomp
      injection hcomp with hcomp
      rw [hnone] at hcomp
      injection hcomp with hcomp
      cases hcomp
    · -- empty brute-force set: search cannot return an assignment
      intro hbrute
      rw [hsearch]
      simp only
      cases hr : r with
      | none => rfl
      | some A =>
        exfalso
        obtain ⟨htot, hpa⟩ := hsound A hr
        have hcanon : (st.vars.map fun v => (v, (lookupA A v).getD 0)) ∈ bruteSolutions st := by
          rw [bruteSolutions, List.mem_filter]
          constructor
          · refine map_graph_mem_allAssignments st.domains _ st.vars ?_
            intro v hv
            obtain ⟨w, hw1, hw2⟩ := htot v hv
            simpa [hw1] using hw2
          · refine satisfiesAll_intro st.bc _ ?_
            intro e he
            obtain ⟨hx, hy⟩ := hbcv e he
            obtain ⟨vx, hvx1, _⟩ := htot e.1.1 hx
            obtain ⟨vy, hvy1, _⟩ := htot e.1.2 hy
            refine ⟨vx, vy, ?_, ?_, hpa e he vx vy hvx1 hvy1⟩
            · rw [lookupA_map_graph _ st.vars e.1.1 hx, hvx1]
              rfl
            · rw [lookupA_map_graph _ st.vars e.1.2 hy, hvy1]
              rfl
        rw [hbrute] at hcanon
        cases hcanon
  · intro A hA
    rw [hsearch] at hA
    simp only at hA
    exact hsound A hA

/-- C2 witness: the pigeonhole instance (three pairwise-unequal variables with
two-value domains) has an empty brute-force solution set, so search returns
absence. -/
theorem c2_witness :
    buildCSP ["A", "B", "C"] [("A", [1, 2]), ("B", [1, 2]), ("C", [1, 2])]
        [("A", "B"), ("A", "C"), ("B", "C")] =
      some ⟨["A", "B", "C"], [("A", [1, 2]), ("B", [1, 2]), ("C", [1, 2])],
        [(("A", "B"), [(1, 2), (2, 1)]), (("A", "C"), [(1, 2), (2, 1)]),
          (("B", "C"), [(1, 2), (2, 1)])]⟩ ∧
    bruteSolutions ⟨["A", "B", "C"], [("A", [1, 2]), ("B", [1, 2]), ("C", [1, 2])],
        [(("A", "B"), [(1, 2), (2, 1)]), (("A", "C"), [(1, 2), (2, 1)]),
          (("B", "C"), [(1, 2), (2, 1)])]⟩ = [] ∧
    (backtracking_search ⟨["A", "B", "C"], [("A", [1, 2]), ("B", [1, 2]), ("C", [1, 2])],
        [(("A", "B"), [(1, 2), (2, 1)]), (("A", "C"), [(1, 2), (2, 1)]),
          (("B", "C"), [(1, 2), (2, 1)])]⟩).1 = none := by
  refine ⟨by decide, by decide, ?_⟩
  exact (c2_search_completeness ["A", "B", "C"]
    [("A", [1, 2]), ("B", [1, 2]), ("C", [1, 2])]
    [("A", "B"), ("A", "C"), ("B", "C")] _
    (by decide) (by decide) (by decide) (by decide)).1.mpr (by decide)

/-- C3 (amended): key-direction AC-3 postcondition.  On every CSP instance
built from an irreflexive edge list, if `ac_3` reports success then for every
registered constraint key `(Xi, Xj)` every value remaining in `domain(Xi)`
has a supporting value in `domain(Xj)`; the reverse direction of a stored key
is not guaranteed (and on the 4×4 Latin-square scenario no neighboring domain
is reduced at all — see the counterexample). -/
theorem c3_ac3_key_direction (vars : List Var) (domains : Domains)
    (edges : List (Var × Var)) (st : CSPState)
    (hirr : ∀ e ∈ edges, e.1 ≠ e.2)
    (hbuild : buildCSP vars domains edges = some st)
    (df : Domains) (h : ac_3 st = (true, df)) :
    keysConsistent st.bc df :=
  ac_3_true_keysConsistent st (buildCSP_good vars domains edges st hirr hbuild).1 df h

/-- C3 witness: the two-variable inequality instance is reported
arc-consistent, every domain value having a support under the stored key. -/
theorem c3_witness :
    keysConsistent ([(("A", "B"), [(1, 2), (2, 1)])] : BC)
      [("A", [1, 2]), ("B", [1, 2])] :=
  c3_ac3_key_direction ["A", "B"] [("A", [1, 2]), ("B", [1, 2])] [("A", "B")]
    ⟨["A", "B"], [("A", [1, 2]), ("B", [1, 2])], [(("A", "B"), [(1, 2), (2, 1)])]⟩
    (by decide) (by decide) [("A", [1, 2]), ("B", [1, 2])] (by decide)

/-- The 4×4 Latin-square-style scenario of claim C3: sixteen cells, rows and
columns pairwise distinct, the corner cell pre-fixed to the singleton 1. -/
def latinVars : List Var :=
  ["X11", "X12", "X13", "X14", "X21", "X22", "X23", "X24",
   "X31", "X32", "X33", "X34", "X41", "X42", "X43", "X44"]

/-- Domains of the 4×4 scenario: the fixed corner holds only 1, every other
cell holds 1–4. -/
def latinDomains : Domains :=
  [("X11", [1]), ("X12", [1, 2, 3, 4]), ("X13", [1, 2, 3, 4]), ("X14", [1, 2, 3, 4]),
   ("X21", [1, 2, 3, 4]), ("X22", [1, 2, 3, 4]), ("X23", [1, 2, 3, 4]), ("X24", [1, 2, 3, 4]),
   ("X31", [1, 2, 3, 4]), ("X32", [1, 2, 3, 4]), ("X33", [1, 2, 3, 4]), ("X34", [1, 2, 3, 4]),
   ("X41", [1, 2, 3, 4]), ("X42", [1, 2, 3, 4]), ("X43", [1, 2, 3, 4]), ("X44", [1, 2, 3, 4])]

/-- Row and column all-different edges of the 4×4 scenario, generated with
`alldiff` exactly as the repository's puzzle builders do. -/
def latinEdges : List (Var × Var) :=
  alldiff ["X11", "X12", "X13", "X14"] ++ alldiff ["X21", "X22", "X23", "X24"] ++
  alldiff ["X31", "X32", "X33", "X34"] ++ alldiff ["X41", "X42", "X43", "X44"] ++
  alldiff ["X11", "X21", "X31", "X41"] ++ alldiff ["X12", "X22", "X32", "X42"] ++
  alldiff ["X13", "X23", "X33", "X43"] ++ alldiff ["X14", "X24", "X34", "X44"]

/-- The constructed 4×4 CSP instance (construction succeeds, see the
counterexample below). -/
def latinSt : CSPState :=
  (buildCSP latinVars latinDomains latinEdges).getD ⟨[], [], []⟩

/-- C3, counterexample to the claim as stated: on the 4×4 Latin-square
instance with the corner pre-fixed to 1, `ac_3` returns `True` yet changes no
domain at all: the fixed value 1 is removed from no neighboring cell (it
remains in every cell's domain), because the fixed cell occurs only as the
first component of constraint keys and only stored key directions are ever
enqueued.  In particular value 1 in `domain(X12)` has no support in
`domain(X11)` although the two are constrained, refuting the claimed
all-neighbors postcondition as well. -/
theorem c3_counterexample :
    buildCSP latinVars latinDomains latinEdges = some latinSt ∧
    ac_3 latinSt = (true, latinDomains) ∧
    (∀ v ∈ latinVars, (1 : Val) ∈ lookupD latinDomains v) ∧
    (lookupA latinSt.bc ("X11", "X12")).isSome = true ∧
    ¬∃ w ∈ lookupD latinDomains "X11", supportOk latinSt.bc "X12" 1 "X11" w = true := by
  refine ⟨by decide, by decide, by decide, by decide, by decide⟩

/-- C4 (amended): `ac_3` does return `False` when some variable's domain is
empty and that variable occurs as the second component of a registered
constraint key whose first variable has a nonempty domain.  The claim's
parenthetical sub-cases do not force a `False` result: there are instances
where the empty-domain variable occurs only as the first component of keys,
and instances where it has no constraints at all, on which `ac_3` returns
`True` (see the counterexample). -/
theorem c4_empty_domain_detected (st : CSPState) (Y X : Var)
    (hk : (Y, X) ∈ keysList st.bc)
    (hX : lookupD st.domains X = [])
    (hY : lookupD st.domains Y ≠ []) :
    (ac_3 st).1 = false := by
  refine ac3LoopF_false_of_witness _ st.bc st.domains _ ⟨(Y, X), ?_, hX, hY⟩
    (ac_3 st) (ac_3_eq_loop st)
  simpa [keysList] using hk

/-- C4 witness: variable B has an empty domain and occurs second in the key
`(A, B)` with `domain(A)` nonempty, so `ac_3` fails. -/
theorem c4_witness :
    ("A", "B") ∈ keysList (⟨["A", "B"], [("A", [1]), ("B", [])],
        [(("A", "B"), [])]⟩ : CSPState).bc ∧
    lookupD [("A", [1]), ("B", [])] "B" = [] ∧
    lookupD [("A", [1]), ("B", [])] "A" ≠ [] ∧
    (ac_3 ⟨["A", "B"], [("A", [1]), ("B", [])], [(("A", "B"), [])]⟩).1 = false :=
  ⟨by decide, by decide, by decide,
    c4_empty_domain_detected ⟨["A", "B"], [("A", [1]), ("B", [])], [(("A", "B"), [])]⟩
      "A" "B" (by decide) (by decide) (by decide)⟩

/-- C4, counterexample to the claim as stated: a variable with an empty
domain that occurs only as the first component of a constraint key (first
instance), or that has no constraints at all (second instance), does not make
`ac_3` return `False` — it returns `True`. -/
theorem c4_counterexample :
    buildCSP ["A", "B"] [("A", []), ("B", [1])] [("A", "B")] =
      some ⟨["A", "B"], [("A", []), ("B", [1])], [(("A", "B"), [])]⟩ ∧
    (ac_3 ⟨["A", "B"], [("A", []), ("B", [1])], [(("A", "B"), [])]⟩).1 = true ∧
    buildCSP ["A"] [("A", [])] [] = some ⟨["A"], [("A", [])], []⟩ ∧
    (ac_3 ⟨["A"], [("A", [])], []⟩).1 = true := by
  refine ⟨by decide, by decide, by decide, by decide⟩

/-- C7 (amended): AC-3 is idempotent after a successful run: if `ac_3`
returned `True`, running it again on the resulting domains returns `True` and
leaves every domain exactly as the first run left it.  (After a failed run
the second run can differ — see the counterexample.) -/
theorem c7_ac3_idempotent_on_success (vars : List Var) (domains : Domains)
    (edges : List (Var × Var)) (st : CSPState)
    (hirr : ∀ e ∈ edges, e.1 ≠ e.2)
    (hbuild : buildCSP vars domains edges = some st)
    (df : Domains) (h : ac_3 st = (true, df)) :
    ac_3 ⟨st.vars, df, st.bc⟩ = (true, df) := by
  have hg := (buildCSP_good vars domains edges st hirr hbuild).1
  have hcons := ac_3_true_keysConsistent st hg df h
  exact ac_3_of_keysConsistent ⟨st.vars, df, st.bc⟩ hcons

/-- C7 witness: on the two-variable inequality instance the first run returns
`True` without changes, and the second run reproduces the same result. -/
theorem c7_witness :
    ac_3 ⟨["A", "B"], [("A", [1, 2]), ("B", [1, 2])],
        [(("A", "B"), [(1, 2), (2, 1)])]⟩ =
      (true, [("A", [1, 2]), ("B", [1, 2])]) :=
  c7_ac3_idempotent_on_success ["A", "B"] [("A", [1, 2]), ("B", [1, 2])] [("A", "B")]
    ⟨["A", "B"], [("A", [1, 2]), ("B", [1, 2])], [(("A", "B"), [(1, 2), (2, 1)])]⟩
    (by decide) (by decide) [("A", [1, 2]), ("B", [1, 2])] (by decide)

/-- C7, counterexample to the claim as stated: two variables each with domain
`{1}` under an inequality constraint (the compatible-pairs set is empty).
The first `ac_3` run returns `False`; the immediate second run on the
resulting domains returns `True` — a different boolean result. -/
theorem c7_counterexample :
    buildCSP ["A", "B"] [("A", [1]), ("B", [1])] [("A", "B")] =
      some ⟨["A", "B"], [("A", [1]), ("B", [1])], [(("A", "B"), [])]⟩ ∧
    (ac_3 ⟨["A", "B"], [("A", [1]), ("B", [1])], [(("A", "B"), [])]⟩).1 = false ∧
    (ac_3 ⟨["A", "B"],
        (ac_3 ⟨["A", "B"], [("A", [1]), ("B", [1])], [(("A", "B"), [])]⟩).2,
        [(("A", "B"), [])]⟩).1 = true := by
  refine ⟨by decide, by decide, by decide⟩
